import Mathlib

/-!
Verification of the Lab3_Redes routing laboratory (Dijkstra router, flooding
routers, link-state database, forwarding dispatcher, message framing).

Python `float` values are modelled as rationals (`ℚ`), Python `int` as `ℤ`,
Python dictionaries as insertion-ordered association lists with
update-in-place/append-on-new-key assignment, and `time.time()` as an explicit
`now : ℚ` argument threaded through each call that reads the clock.
`math.inf` distances are modelled as `Option ℚ` with `none` standing for the
infinite distance.  Fallible code returns `Except String` carrying the Python
exception message.
-/

namespace Lab3

/-- `dict.get k` on an insertion-ordered association list. -/
def dget {α β : Type} [DecidableEq α] : List (α × β) → α → Option β
  | [], _ => none
  | (k, v) :: rest, a => if k = a then some v else dget rest a

/-- `dict[k] = v`: replace the value at the first occurrence of the key,
or append a new binding when the key is absent. -/
def dset {α β : Type} [DecidableEq α] : List (α × β) → α → β → List (α × β)
  | [], a, b => [(a, b)]
  | (k, v) :: rest, a, b => if k = a then (a, b) :: rest else (k, v) :: dset rest a b

/-- Keys of an association list, in insertion order. -/
def dkeys {α β : Type} (l : List (α × β)) : List α := l.map Prod.fst

@[simp] theorem dget_nil {α β : Type} [DecidableEq α] (a : α) :
    dget ([] : List (α × β)) a = none := rfl

@[simp] theorem dget_cons {α β : Type} [DecidableEq α] (k : α) (v : β) (rest : List (α × β)) (a : α) :
    dget ((k, v) :: rest) a = if k = a then some v else dget rest a := rfl

@[simp] theorem dset_nil {α β : Type} [DecidableEq α] (a : α) (b : β) :
    dset ([] : List (α × β)) a b = [(a, b)] := rfl

@[simp] theorem dset_cons {α β : Type} [DecidableEq α] (k : α) (v : β) (rest : List (α × β)) (a : α) (b : β) :
    dset ((k, v) :: rest) a b = if k = a then (a, b) :: rest else (k, v) :: dset rest a b := rfl

theorem dget_dset_self {α β : Type} [DecidableEq α] (l : List (α × β)) (a : α) (b : β) :
    dget (dset l a b) a = some b := by
  induction l with
  | nil => simp
  | cons kv rest ih =>
    obtain ⟨k, v⟩ := kv
    by_cases h : k = a <;> simp [h, ih]

theorem dget_dset_ne {α β : Type} [DecidableEq α] (l : List (α × β)) (a a' : α) (b : β)
    (h : a ≠ a') : dget (dset l a b) a' = dget l a' := by
  induction l with
  | nil => simp [h]
  | cons kv rest ih =>
    obtain ⟨k, v⟩ := kv
    by_cases hk : k = a
    · subst hk
      simp [h, Ne.symm h]
    · by_cases hk' : k = a' <;> simp [hk, hk', ih, Ne.symm h]

theorem dkeys_dset {α β : Type} [DecidableEq α] (l : List (α × β)) (a : α) (b : β) :
    dkeys (dset l a b) = if a ∈ dkeys l then dkeys l else dkeys l ++ [a] := by
  induction l with
  | nil => simp [dkeys]
  | cons kv rest ih =>
    obtain ⟨k, v⟩ := kv
    by_cases hk : k = a
    · subst hk
      simp [dkeys]
    · have hne : ¬ a = k := fun hh => hk hh.symm
      simp only [dkeys, dset_cons, if_neg hk, List.map_cons] at ih ⊢
      rw [ih]
      by_cases hmem : a ∈ List.map Prod.fst rest
      · simp [List.mem_cons, hmem]
      · simp [List.mem_cons, hne, hmem]

theorem dset_keys_nodup {α β : Type} [DecidableEq α] (l : List (α × β)) (a : α) (b : β)
    (h : (dkeys l).Nodup) : (dkeys (dset l a b)).Nodup := by
  rw [dkeys_dset]
  split
  · exact h
  · next hmem => simpa using List.Nodup.append h (by simp) (by simpa using hmem)

/-! ## Link-state database — `src/parte2/lsr/lsdb.py`

`LSDB.db` maps an origin node to the triple
`(sequence number, expiry instant, advertised links)`. -/

/-- `LSP_AGE_SEC` from `src/parte2/lsr/constants.py`. -/
def LSP_AGE_SEC : ℚ := 30

/-- One stored link-state advertisement: `(seq, expires, links)`. -/
abbrev LSPEntry := Int × ℚ × List (String × ℚ)

structure LSDB where
  db : List (String × LSPEntry)

/-- `LSDB.apply_lsp` from `src/parte2/lsr/lsdb.py`; `now` models `time.time()`,
and `now + min age LSP_AGE_SEC` is the `expires` instant the code stores. -/
def LSDB.apply_lsp (l : LSDB) (now : ℚ) (origin : String) (seq : Int) (age : ℚ)
    (links : List (String × ℚ)) : Bool × LSDB :=
  match dget l.db origin with
  | none => (true, ⟨dset l.db origin (seq, now + min age LSP_AGE_SEC, links)⟩)
  | some cur =>
    if seq > cur.1 then (true, ⟨dset l.db origin (seq, now + min age LSP_AGE_SEC, links)⟩)
    else (false, l)

/-! ## Flooding dedup cache — `src/parte2/lsr/flooding.py` (`FloodingCache`) -/

structure FloodingCache where
  seen : List ((String × String) × ℚ)
  max_items : Nat
  entry_ttl : ℚ

/-- The cache as constructed with the Python default arguments
(`max_items = 10000`, `entry_ttl = 60.0`). -/
def FloodingCache.default : FloodingCache := ⟨[], 10000, 60⟩

/-- `sorted(self._seen.items(), key=lambda kv: kv[1])`: the cache entries in
ascending order of expiry instant (a stable sort, like Python's). -/
def sortByExpiry (s1 : List ((String × String) × ℚ)) : List ((String × String) × ℚ) :=
  List.insertionSort (fun a b => a.2 ≤ b.2) s1

/-- The keys of the `length - m` oldest-expiring entries, which
`FloodingCache._evict` pops when over capacity. -/
def dropKeys (m : Nat) (s1 : List ((String × String) × ℚ)) : List (String × String) :=
  ((sortByExpiry s1).take (s1.length - m)).map Prod.fst

/-- Second half of `FloodingCache._evict`: when more than `m` entries remain,
pop the keys of the `length - m` oldest-expiring entries. -/
def trimExcess (m : Nat) (s1 : List ((String × String) × ℚ)) :
    List ((String × String) × ℚ) :=
  if s1.length > m then s1.filter fun kv => ! decide (kv.1 ∈ dropKeys m s1)
  else s1

/-- `FloodingCache._evict`: drop expired entries, then, when more than
`max_items` entries remain, drop the oldest-expiring surplus entries. -/
def FloodingCache.evict (c : FloodingCache) (now : ℚ) : FloodingCache :=
  ⟨trimExcess c.max_items (c.seen.filter fun kv => ! decide (kv.2 < now)),
    c.max_items, c.entry_ttl⟩

/-- `FloodingCache.should_forward`: returns the boolean decision together with
the updated cache. -/
def FloodingCache.should_forward (c : FloodingCache) (now : ℚ) (origin mid : String) :
    Bool × FloodingCache :=
  if origin = "" ∨ mid = "" then (false, c)
  else if (dget (c.evict now).seen (origin, mid)).isSome then (false, c.evict now)
  else (true, ⟨dset (c.evict now).seen (origin, mid) (now + c.entry_ttl),
    (c.evict now).max_items, (c.evict now).entry_ttl⟩)

/-! ## Theorems for the LSDB and the flooding cache -/

/-- Claim C3: `apply_lsp` rejects (returns `false`, database unchanged) whenever an
entry for the origin is stored with a sequence number `≥ seq`; it accepts
(returns `true`) when no entry exists or the new sequence number is strictly
greater, and then the stored entry for the origin becomes
`(seq, now + min age 30, links)`, overwriting any prior links and expiry. -/
theorem C3_apply_lsp_spec (l : LSDB) (now : ℚ) (origin : String) (seq : Int) (age : ℚ)
    (links : List (String × ℚ)) :
    (∀ s e ls, dget l.db origin = some (s, e, ls) → seq ≤ s →
      l.apply_lsp now origin seq age links = (false, l)) ∧
    ((dget l.db origin = none ∨ ∃ s e ls, dget l.db origin = some (s, e, ls) ∧ s < seq) →
      (l.apply_lsp now origin seq age links).1 = true ∧
        dget (l.apply_lsp now origin seq age links).2.db origin
          = some (seq, now + min age LSP_AGE_SEC, links)) := by
  constructor
  · intro s e ls hget hle
    simp only [LSDB.apply_lsp, hget]
    rw [if_neg (by simpa using hle)]
  · intro h
    have hstep : l.apply_lsp now origin seq age links
        = (true, ⟨dset l.db origin (seq, now + min age LSP_AGE_SEC, links)⟩) := by
      rcases h with hnone | ⟨s, e, ls, hget, hlt⟩
      · simp only [LSDB.apply_lsp, hnone]
      · simp only [LSDB.apply_lsp, hget]
        rw [if_pos (by simpa using hlt)]
    rw [hstep]
    exact ⟨rfl, dget_dset_self _ _ _⟩

/-- Witness for C3 at a concrete database: a stored `("A", seq 3)` entry rejects a
replay with `seq = 3` and accepts `seq = 4`. -/
theorem C3_apply_lsp_spec_witness :
    (LSDB.apply_lsp ⟨[("A", (3, 10, []))]⟩ 5 "A" 3 100 [("B", 1)]
        = (false, ⟨[("A", (3, 10, []))]⟩)) ∧
    ((LSDB.apply_lsp ⟨[("A", (3, 10, []))]⟩ 5 "A" 4 100 [("B", 1)]).1 = true ∧
      dget (LSDB.apply_lsp ⟨[("A", (3, 10, []))]⟩ 5 "A" 4 100 [("B", 1)]).2.db "A"
        = some (4, 5 + min 100 LSP_AGE_SEC, [("B", 1)])) :=
  ⟨(C3_apply_lsp_spec ⟨[("A", (3, 10, []))]⟩ 5 "A" 3 100 [("B", 1)]).1 3 10 [] rfl (by decide),
   (C3_apply_lsp_spec ⟨[("A", (3, 10, []))]⟩ 5 "A" 4 100 [("B", 1)]).2
     (Or.inr ⟨3, 10, [], rfl, by decide⟩)⟩

/-- Claim C4: on a fresh default cache, the same `(origin, message-id)` pair asked
twice — the second time before the 60-second entry lifetime elapses — yields
`true` then `false`; two different ids from the same origin both yield `true`;
an empty origin or id always yields `false` and leaves the cache unchanged. -/
theorem C4_should_forward_spec :
    (∀ (origin mid : String) (t0 t1 : ℚ), origin ≠ "" → mid ≠ "" → t1 < t0 + 60 →
      (FloodingCache.default.should_forward t0 origin mid).1 = true ∧
      ((FloodingCache.default.should_forward t0 origin mid).2.should_forward t1 origin mid).1
        = false) ∧
    (∀ (origin mid1 mid2 : String) (t0 t1 : ℚ), origin ≠ "" → mid1 ≠ "" → mid2 ≠ "" →
      mid1 ≠ mid2 →
      (FloodingCache.default.should_forward t0 origin mid1).1 = true ∧
      ((FloodingCache.default.should_forward t0 origin mid1).2.should_forward t1 origin mid2).1
        = true) ∧
    (∀ (c : FloodingCache) (now : ℚ) (origin mid : String),
      c.should_forward now "" mid = (false, c) ∧ c.should_forward now origin "" = (false, c)) := by
  refine ⟨?_, ?_, ?_⟩
  · intro origin mid t0 t1 ho hm ht
    have hsurvive : ¬ (t0 + 60 < t1) := by linarith
    constructor
    · simp [FloodingCache.should_forward, FloodingCache.evict, FloodingCache.default,
        trimExcess, ho, hm]
    · simp [FloodingCache.should_forward, FloodingCache.evict, FloodingCache.default,
        trimExcess, ho, hm, List.filter, hsurvive]
  · intro origin mid1 mid2 t0 t1 ho hm1 hm2 hne
    constructor
    · simp [FloodingCache.should_forward, FloodingCache.evict, FloodingCache.default,
        trimExcess, ho, hm1]
    · by_cases hsurvive : t0 + 60 < t1 <;>
        simp [FloodingCache.should_forward, FloodingCache.evict, FloodingCache.default,
          trimExcess, ho, hm1, hm2, hne, Ne.symm hne, List.filter, hsurvive]
  · intro c now origin mid
    constructor
    · simp [FloodingCache.should_forward]
    · simp [FloodingCache.should_forward]

/-- Witness for C4 at concrete origins, ids and instants. -/
theorem C4_should_forward_spec_witness :
    ((FloodingCache.default.should_forward 0 "A" "m1").1 = true ∧
      ((FloodingCache.default.should_forward 0 "A" "m1").2.should_forward 10 "A" "m1").1
        = false) ∧
    ((FloodingCache.default.should_forward 0 "A" "m1").1 = true ∧
      ((FloodingCache.default.should_forward 0 "A" "m1").2.should_forward 10 "A" "m2").1
        = true) ∧
    (FloodingCache.default.should_forward 0 "" "m1" = (false, FloodingCache.default) ∧
      FloodingCache.default.should_forward 0 "A" "" = (false, FloodingCache.default)) :=
  ⟨C4_should_forward_spec.1 "A" "m1" 0 10 (by decide) (by decide) (by norm_num),
   C4_should_forward_spec.2.1 "A" "m1" "m2" 0 10 (by decide) (by decide) (by decide) (by decide),
   C4_should_forward_spec.2.2 FloodingCache.default 0 "A" "m1"⟩

theorem trimExcess_sublist (m : Nat) (s1 : List ((String × String) × ℚ)) :
    (trimExcess m s1).Sublist s1 := by
  unfold trimExcess
  split
  · exact List.filter_sublist _
  · exact List.Sublist.refl _

theorem trimExcess_length_le (m : Nat) (s1 : List ((String × String) × ℚ))
    (hnd : (dkeys s1).Nodup) : (trimExcess m s1).length ≤ m := by
  unfold trimExcess
  split
  · next hgt =>
    have hperm : List.Perm (sortByExpiry s1) s1 := List.perm_insertionSort _ _
    have hsortednd : (dkeys (sortByExpiry s1)).Nodup :=
      (hperm.map Prod.fst).nodup_iff.mpr hnd
    have htakend : (dropKeys m s1).Nodup := by
      rw [dropKeys, List.map_take]
      exact List.Nodup.sublist (List.take_sublist _ _) hsortednd
    have hlenk : s1.length - m ≤ (sortByExpiry s1).length := by
      rw [hperm.length_eq]
      omega
    have hdroplen : (dropKeys m s1).length = s1.length - m := by
      simp [dropKeys, List.length_take, Nat.min_eq_left hlenk]
    -- each dropped key names an entry of `s1` that the filter removes
    have hsubset : dropKeys m s1
        ⊆ dkeys (s1.filter fun kv => decide (kv.1 ∈ dropKeys m s1)) := by
      intro x hx
      have hxs : x ∈ dkeys (sortByExpiry s1) := by
        rw [dropKeys, List.map_take] at hx
        exact List.mem_of_mem_take hx
      have hxs1 : x ∈ dkeys s1 := (hperm.map Prod.fst).mem_iff.mp hxs
      obtain ⟨kv, hkv, hfst⟩ := List.mem_map.mp hxs1
      refine List.mem_map.mpr ⟨kv, List.mem_filter.mpr ⟨hkv, ?_⟩, hfst⟩
      simp [hfst, hx]
    have hcount : s1.length - m
        ≤ (s1.filter fun kv => decide (kv.1 ∈ dropKeys m s1)).length := by
      have hsp := (List.subperm_of_subset htakend hsubset).length_le
      rw [hdroplen] at hsp
      simpa [dkeys] using hsp
    have hsplit := List.length_eq_length_filter_add
      (l := s1) (f := fun kv => decide (kv.1 ∈ dropKeys m s1))
    omega
  · next hle => omega

theorem evict_keys_nodup (c : FloodingCache) (now : ℚ) (hnd : (dkeys c.seen).Nodup) :
    (dkeys (c.evict now).seen).Nodup :=
  List.Nodup.sublist (List.Sublist.map _ (trimExcess_sublist _ _))
    (List.Nodup.sublist (List.Sublist.map _ (List.filter_sublist _)) hnd)

theorem evict_length_le (c : FloodingCache) (now : ℚ) (hnd : (dkeys c.seen).Nodup) :
    (c.evict now).seen.length ≤ c.max_items :=
  trimExcess_length_le _ _
    (List.Nodup.sublist (List.Sublist.map _ (List.filter_sublist _)) hnd)

theorem dset_length_le {α β : Type} [DecidableEq α] (l : List (α × β)) (a : α) (b : β) :
    (dset l a b).length ≤ l.length + 1 := by
  induction l with
  | nil => simp
  | cons kv rest ih =>
    obtain ⟨k, v⟩ := kv
    by_cases hk : k = a
    · simp [hk]
    · simp only [dset_cons, if_neg hk, List.length_cons]
      omega

/-- Claim C10: for any cache state whose dedup table has duplicate-free keys and
holds at most `max_items + 1` entries, after any `should_forward` call the table
again has duplicate-free keys and holds at most `max_items + 1` entries:
eviction trims to at most `max_items` entries and the call inserts at most one. -/
theorem C10_cache_bound (c : FloodingCache) (now : ℚ) (origin mid : String)
    (hlen : c.seen.length ≤ c.max_items + 1) (hnd : (dkeys c.seen).Nodup) :
    (c.should_forward now origin mid).2.seen.length ≤ (c.should_forward now origin mid).2.max_items + 1 ∧
      (dkeys (c.should_forward now origin mid).2.seen).Nodup := by
  have hend := evict_keys_nodup c now hnd
  have helen := evict_length_le c now hnd
  have hemax : (c.evict now).max_items = c.max_items := rfl
  unfold FloodingCache.should_forward
  split
  · exact ⟨hlen, hnd⟩
  · split
    · show (c.evict now).seen.length ≤ (c.evict now).max_items + 1 ∧
        (dkeys (c.evict now).seen).Nodup
      exact ⟨by rw [hemax]; omega, hend⟩
    · show (dset (c.evict now).seen (origin, mid) (now + c.entry_ttl)).length
          ≤ (c.evict now).max_items + 1 ∧
        (dkeys (dset (c.evict now).seen (origin, mid) (now + c.entry_ttl))).Nodup
      refine ⟨?_, dset_keys_nodup _ _ _ hend⟩
      have := dset_length_le (c.evict now).seen (origin, mid) (now + c.entry_ttl)
      rw [hemax]
      omega

/-- Witness for C10 at a concrete two-entry cache with `max_items = 1`. -/
theorem C10_cache_bound_witness :
    ((FloodingCache.should_forward ⟨[(("A", "m1"), 10), (("B", "m2"), 20)], 1, 60⟩ 0 "C" "m3").2.seen.length
        ≤ (FloodingCache.should_forward ⟨[(("A", "m1"), 10), (("B", "m2"), 20)], 1, 60⟩ 0 "C" "m3").2.max_items + 1 ∧
      (dkeys (FloodingCache.should_forward ⟨[(("A", "m1"), 10), (("B", "m2"), 20)], 1, 60⟩ 0 "C" "m3").2.seen).Nodup) :=
  C10_cache_bound ⟨[(("A", "m1"), 10), (("B", "m2"), 20)], 1, 60⟩ 0 "C" "m3"
    (by decide) (by decide)

/-! ## Simple UDP flooding node — `src/flooding_router.py`

The node state is its identifier, the adjacency of the topology graph, the set
of peers with a known endpoint, and the de-dup `seen` set.  `_serve` discards
the UDP source address (`data, _ = recvfrom`), so `_handle` receives only the
message; `print` logging is not modelled.  `_flood(msg, came_from)` sends to
every neighbor that is not `came_from` and has an endpoint. -/

namespace Simple

structure Msg where
  from_ : Option String
  to_ : Option String
  mtype : Option String
  ttl : Int
  payload : String

/-- `FloodingNode._msg_key`: the canonical JSON of `{from, to, payload}`,
modelled as the triple itself. -/
def msg_key (m : Msg) : Option String × Option String × String :=
  (m.from_, m.to_, m.payload)

/-- Neighbor identifiers of `u` (`Graph.neighbors(u).keys()`), in dict order. -/
def neighborsOf (adj : List (String × List (String × ℚ))) (u : String) : List String :=
  match dget adj u with
  | none => []
  | some row => dkeys row

/-- `FloodingNode._flood`: send `msg` to every neighbor except `came_from`,
skipping neighbors without an endpoint.  Returns the list of `(peer, message)`
datagrams sent. -/
def flood (node_id : String) (adj : List (String × List (String × ℚ)))
    (endpoints : List String) (msg : Msg) (came_from : Option String) :
    List (String × Msg) :=
  ((neighborsOf adj node_id).filter fun n =>
    decide (some n ≠ came_from ∧ n ∈ endpoints)).map fun n => (n, msg)

/-- `FloodingNode._handle`: de-dup by `_msg_key`, deliver `echo`/`to==me`
locally (a print, not modelled), then decrement the TTL and re-flood with
`came_from = msg.get("from")`.  Returns the new `seen` set and the datagrams
sent. -/
def handle (node_id : String) (adj : List (String × List (String × ℚ)))
    (endpoints : List String) (seen : List (Option String × Option String × String))
    (msg : Msg) : List (Option String × Option String × String) × List (String × Msg) :=
  if msg_key msg ∈ seen then (seen, [])
  else if msg.mtype = some "echo" then (msg_key msg :: seen, [])
  else if msg.ttl - 1 ≤ 0 then (msg_key msg :: seen, [])
  else (msg_key msg :: seen,
    flood node_id adj endpoints { msg with ttl := msg.ttl - 1 } msg.from_)

end Simple

/-! ## Flooding node with headers — `src/parte2/lsr/flooding.py` (`FloodingNode`) -/

namespace Parte2

structure Msg where
  proto : Option String
  mtype : Option String
  /-- `str(msg.get("from", ""))` -/
  from_ : String
  /-- `str(msg.get("id", ""))` -/
  id_ : String
  /-- `str(msg.get("to", ""))` -/
  to_ : String
  /-- `int(msg.get("ttl", 0))` -/
  ttl : Int
  headers : List (List (String × String))
  payload : String

/-- `FloodingNode._get_header`: the value of `key` in the FIRST header dict that
contains it, else the default `none`. -/
def get_header (headers : List (List (String × String))) (key : String) : Option String :=
  match headers with
  | [] => none
  | h :: rest =>
    match dget h key with
    | some v => some v
    | none => get_header rest key

/-- The name in the most recently appended `via` header entry.  This follows
the spec's words («the neighbor named in the most recent "via" header») for
comparison against what `_handle` actually excludes. -/
def mostRecentVia (headers : List (List (String × String))) : Option String :=
  get_header headers.reverse "via"

/-- `FloodingNode._flood`: send to every neighbor other than `exclude` that has
an endpoint. -/
def flood (node_id : String) (adj : List (String × List (String × ℚ)))
    (endpoints : List String) (msg : Msg) (exclude : Option String) :
    List (String × Msg) :=
  ((Simple.neighborsOf adj node_id).filter fun n =>
    decide (some n ≠ exclude ∧ n ∈ endpoints)).map fun n => (n, msg)

/-- `FloodingNode._handle`: drop foreign protocols, de-dup by `(origin, id)`,
deliver locally (a print, not modelled), decrement the TTL, append a
`{via: node_id}` header and re-flood excluding `_get_header(headers, "via")`.
Returns the new `seen` set and the datagrams sent. -/
def handle (node_id : String) (adj : List (String × List (String × ℚ)))
    (endpoints : List String) (seen : List (String × String)) (msg : Msg) :
    List (String × String) × List (String × Msg) :=
  if msg.proto ≠ some "flooding" then (seen, [])
  else if (msg.from_, msg.id_) ∈ seen then (seen, [])
  else if msg.ttl - 1 ≤ 0 then ((msg.from_, msg.id_) :: seen, [])
  else ((msg.from_, msg.id_) :: seen,
    flood node_id adj endpoints
      { msg with ttl := msg.ttl - 1, headers := msg.headers ++ [[("via", node_id)]] }
      (get_header msg.headers "via"))

end Parte2

/-! ## Theorems for the two flooding nodes (claims C5 and C6) -/

/-- Counterexample to claim C5 at a concrete input.  Scenario: a message
originated by `A` reaches node `C` relayed by neighbor `B` (the immediate
predecessor), so under the claim the re-flood would go to every neighbor except
`B`, i.e. to `["A"]`.  Since `_serve` discards the UDP sender, `_handle`'s
output cannot depend on the relayer at all: the copy is sent exactly to `["B"]`
— the immediate predecessor `B` is NOT excluded, while the origin `A` is. -/
theorem C5_counterexample :
    ((Simple.handle "C" [("C", [("A", 1), ("B", 1)]), ("A", [("C", 1)]), ("B", [("C", 1)])]
        ["A", "B", "C"] []
        ⟨some "A", some "D", some "message", 3, "x"⟩).2.map Prod.fst = ["B"]) ∧
      ("B" : String) ≠ "A" := by
  constructor
  · rfl
  · decide

/-- Claim C5 amended: when a first-seen, non-echo message with remaining ttl
greater than 1 is handled, the node re-floods the ttl-decremented copy (all
other fields unchanged) to exactly the neighbors that have an endpoint and are
not named in the message's `from` field — the flood excludes the ORIGIN of the
message, which coincides with the immediate predecessor only on the first
hop. -/
theorem C5_flood_excludes_origin (node_id : String)
    (adj : List (String × List (String × ℚ))) (endpoints : List String)
    (seen : List (Option String × Option String × String)) (msg : Simple.Msg)
    (h1 : Simple.msg_key msg ∉ seen) (h2 : msg.mtype ≠ some "echo") (h3 : 1 < msg.ttl) :
    ∀ (n : String) (m : Simple.Msg),
      (n, m) ∈ (Simple.handle node_id adj endpoints seen msg).2 ↔
        (n ∈ Simple.neighborsOf adj node_id ∧ some n ≠ msg.from_ ∧ n ∈ endpoints ∧
          m = { msg with ttl := msg.ttl - 1 }) := by
  intro n m
  have httl : ¬ (msg.ttl - 1 ≤ 0) := by omega
  simp only [Simple.handle, if_neg h1, if_neg h2, if_neg httl, Simple.flood,
    List.mem_map, List.mem_filter]
  constructor
  · rintro ⟨n', ⟨hmem, hcond⟩, heq⟩
    obtain ⟨h1', h2'⟩ := of_decide_eq_true hcond
    cases heq
    exact ⟨hmem, h1', h2', rfl⟩
  · rintro ⟨hmem, hne, hep, rfl⟩
    exact ⟨n, ⟨hmem, decide_eq_true ⟨hne, hep⟩⟩, rfl⟩

/-- Witness for the amended C5 on the concrete scenario of the counterexample:
the origin-excluded copy to `B` is among the datagrams sent. -/
theorem C5_flood_excludes_origin_witness :
    ("B", (⟨some "A", some "D", some "message", 2, "x"⟩ : Simple.Msg)) ∈
      (Simple.handle "C" [("C", [("A", 1), ("B", 1)]), ("A", [("C", 1)]), ("B", [("C", 1)])]
        ["A", "B", "C"] [] ⟨some "A", some "D", some "message", 3, "x"⟩).2 :=
  (C5_flood_excludes_origin "C"
      [("C", [("A", 1), ("B", 1)]), ("A", [("C", 1)]), ("B", [("C", 1)])]
      ["A", "B", "C"] [] ⟨some "A", some "D", some "message", 3, "x"⟩
      (by decide) (by decide) (by decide) "B" _).mpr
    ⟨by decide, by decide, by decide, rfl⟩

/-- Claim C6, evaluated at a failing input.  Incoming headers
`[{via: X}, {via: Y}]`: the most recently appended `via` entry names `Y`
(the true last hop), but `_get_header` returns the FIRST matching entry, so
`_handle` excludes `X` and the re-flood recipients are `["Y", "Z"]` — the copy
is sent straight back to the neighbor `Y` it came from, contradicting both the
claim and the code's own `last_hop` naming and its `excepto last_hop`
comment. -/
theorem C6_first_via_excluded_not_most_recent :
    Parte2.mostRecentVia [[("via", "X")], [("via", "Y")]] = some "Y" ∧
    (Parte2.handle "C" [("C", [("X", 1), ("Y", 1), ("Z", 1)])] ["C", "X", "Y", "Z"] []
        ⟨some "flooding", some "message", "A", "m1", "D", 5,
          [[("via", "X")], [("via", "Y")]], "p"⟩).2.map Prod.fst = ["Y", "Z"] := by
  constructor
  · rfl
  · rfl

/-! ## Dijkstra router — `src/dijkstra_router.py`

`heapq` holds `(distance, node)` pairs and pops the lexicographically least
one (ties between equal pairs are identical pairs).  The priority queue is
modelled as the list of pending pairs together with a pop-minimum operation
under the Python tuple order: first the float, then the string by code
points. -/

namespace Dijkstra

/-- Code-point lexicographic order on strings (Python `str` comparison). -/
def strLt : List Char → List Char → Bool
  | [], [] => false
  | [], _ :: _ => true
  | _ :: _, [] => false
  | a :: as, b :: bs =>
    if a.toNat < b.toNat then true
    else if b.toNat < a.toNat then false
    else strLt as bs

/-- Python tuple order on `(float, str)` pairs. -/
def pairLt (x y : ℚ × String) : Bool :=
  if x.1 < y.1 then true
  else if y.1 < x.1 then false
  else strLt x.2.data y.2.data

def popMinAux (best : ℚ × String) : List (ℚ × String) → ℚ × String
  | [] => best
  | p :: rest => popMinAux (if pairLt p best then p else best) rest

/-- `heapq.heappop`: remove and return the least pair of the queue. -/
def popMin : List (ℚ × String) → Option ((ℚ × String) × List (ℚ × String))
  | [] => none
  | p :: rest => some (popMinAux p rest, (p :: rest).erase (popMinAux p rest))

structure Graph where
  adj : List (String × List (String × ℚ))
  directed : Bool

/-- `dict.setdefault(u, {})` on the adjacency. -/
def setdefault (adj : List (String × List (String × ℚ))) (u : String) :
    List (String × List (String × ℚ)) :=
  if u ∈ dkeys adj then adj else adj ++ [(u, [])]

/-- `self.adj[u][v] = w` (the key `u` is present after `setdefault`). -/
def updateRow : List (String × List (String × ℚ)) → String → String → ℚ →
    List (String × List (String × ℚ))
  | [], _, _, _ => []
  | (k, row) :: rest, u, v, w =>
    if k = u then (k, dset row v w) :: rest else (k, row) :: updateRow rest u v w

/-- `Graph.add_edge`. -/
def Graph.add_edge (g : Graph) (u v : String) (w : ℚ) : Graph :=
  let a2 := setdefault (setdefault g.adj u) v
  ⟨if g.directed then updateRow a2 u v w else updateRow (updateRow a2 u v w) v u w,
    g.directed⟩

/-- `Graph.neighbors(u)`: `self.adj.get(u, {})`. -/
def Graph.neighbors (g : Graph) (u : String) : List (String × ℚ) :=
  (dget g.adj u).getD []

structure DijkstraResult where
  dist : List (String × Option ℚ)
  prev : List (String × Option String)
deriving DecidableEq

/-- `self.prev.get(curr)`: `none` when the key is missing or stores `None`. -/
def prevGet (prev : List (String × Option String)) (c : String) : Option String :=
  (dget prev c).bind id

/-- The `while parent is not None and parent != src` loop of `next_hop`.
The fuel only guards against a cyclic predecessor map, on which the Python
loop would not terminate; Dijkstra predecessor maps are acyclic. -/
def nextHopLoop (prev : List (String × Option String)) :
    Nat → String → String → Option String → Option String
  | 0, _, _, _ => none
  | fuel + 1, src, curr, parent =>
    match parent with
    | none => none
    | some p => if p = src then some curr else nextHopLoop prev fuel src p (prevGet prev p)

/-- `DijkstraResult.next_hop`. -/
def DijkstraResult.next_hop (r : DijkstraResult) (src dst : String) : Option String :=
  match dget r.dist dst with
  | none => none
  | some none => none
  | some (some _) =>
    if src = dst then some src
    else nextHopLoop r.prev (r.prev.length + 1) src dst (prevGet r.prev dst)

/-- Dijkstra loop state: `dist`, `prev`, the pending heap and the visited set. -/
structure DijState where
  dist : List (String × Option ℚ)
  prev : List (String × Option String)
  pq : List (ℚ × String)
  visited : List String

/-- `dist[v]` as an extended value: `none` is `math.inf`. -/
def dlu (st : DijState) (v : String) : Option ℚ :=
  (dget st.dist v).bind id

/-- `alt < dist[v]` where `dist[v]` may be infinite. -/
def altLt (a : ℚ) : Option ℚ → Bool
  | none => true
  | some d => decide (a < d)

/-- `d_u > dist[u]` where `dist[u]` may be infinite. -/
def distGt (du : ℚ) : Option ℚ → Bool
  | none => false
  | some d => decide (du > d)

def negMsg : String := "Dijkstra requiere pesos no negativos"

/-- The `for v, w in self.g.neighbors(u).items()` relaxation scan of a freshly
visited node `u`, including the negative-weight guard. -/
def scan (u : String) : List (String × ℚ) → DijState → Except String DijState
  | [], st => .ok st
  | (v, w) :: rest, st =>
    if w < 0 then .error negMsg
    else
      match dlu st u with
      | none => scan u rest st
      | some du =>
        if altLt (du + w) (dlu st v) then
          scan u rest
            { st with
              dist := dset st.dist v (some (du + w)),
              prev := dset st.prev v (some u),
              pq := (du + w, v) :: st.pq }
        else scan u rest st

/-- The `while pq` loop.  The fuel is an upper bound on the number of pops:
each node's adjacency is scanned at most once, so at most
`1 + Σ degrees` pairs ever enter the queue. -/
def runLoop (g : Graph) : Nat → DijState → Except String DijState
  | 0, st => .ok st
  | fuel + 1, st =>
    match popMin st.pq with
    | none => .ok st
    | some ((du, u), rest) =>
      if u ∈ st.visited then runLoop g fuel { st with pq := rest }
      else if distGt du (dlu st u) then
        runLoop g fuel { st with pq := rest, visited := u :: st.visited }
      else
        match scan u (g.neighbors u) { st with pq := rest, visited := u :: st.visited } with
        | .error e => .error e
        | .ok st2 => runLoop g fuel st2

/-- Total number of adjacency entries (`Σ degrees`). -/
def edgeCount (g : Graph) : Nat := (g.adj.map fun kv => kv.2.length).sum

/-- `DijkstraRouter.run`. -/
def run (g : Graph) (source : String) : Except String DijkstraResult :=
  if source ∈ dkeys g.adj then
    match runLoop g (1 + edgeCount g)
        { dist := dset (g.adj.map fun kv => (kv.1, (none : Option ℚ))) source (some 0),
          prev := g.adj.map fun kv => (kv.1, (none : Option String)),
          pq := [(0, source)],
          visited := [] } with
    | .error e => .error e
    | .ok st => .ok ⟨st.dist, st.prev⟩
  else .error ("Nodo origen '" ++ source ++ "' no existe en la topología")

/-- A forwarding-table row of `build_forwarding_table`. -/
structure FwdEntry where
  dest : String
  next_hop : Option String
  cost : Option ℚ
deriving DecidableEq

/-- The Python sort key `(math.isinf(cost), dest)` as a total order on
`(dest, cost)` items: finite before infinite, then destination id ascending. -/
def keyLe (a b : String × Option ℚ) : Prop :=
  (a.2.isNone = b.2.isNone ∧ (strLt a.1.data b.1.data = true ∨ a.1 = b.1)) ∨
    (a.2.isNone = false ∧ b.2.isNone = true)

instance : DecidableRel keyLe := fun a b => by
  unfold keyLe
  infer_instance

/-- `DijkstraRouter.build_forwarding_table`: the `dist` items sorted stably by
`(isinf, dest)`, each mapped to its table row. -/
def build_forwarding_table (r : DijkstraResult) (source : String) : List FwdEntry :=
  (List.insertionSort keyLe r.dist).map fun kv =>
    { dest := kv.1,
      next_hop := if kv.1 = source then some source else r.next_hop source kv.1,
      cost := kv.2 }

/-- The undirected topology A–B(1), A–C(4), B–C(2), B–D(5), C–D(1), built by
`add_edge` exactly as `Graph.from_topology` would. -/
def gC1 : Graph :=
  (((((⟨[], false⟩ : Graph).add_edge "A" "B" 1).add_edge "A" "C" 4).add_edge
    "B" "C" 2).add_edge "B" "D" 5).add_edge "C" "D" 1

/-- Claim C1: on the topology A–B(1), A–C(4), B–C(2), B–D(5), C–D(1), `run "A"`
yields distances A:0, B:1, C:3, D:4 with predecessor chain D←C←B←A, and
`next_hop("A", "D") = "B"` (the 4-cost path A→B→C→D beats A→B→D's cost 6). -/
theorem C1_dijkstra_concrete :
    run gC1 "A" = .ok
      ⟨[("A", some 0), ("B", some 1), ("C", some 3), ("D", some 4)],
        [("A", none), ("B", some "A"), ("C", some "B"), ("D", some "C")]⟩ ∧
    DijkstraResult.next_hop
      ⟨[("A", some 0), ("B", some 1), ("C", some 3), ("D", some 4)],
        [("A", none), ("B", some "A"), ("C", some "B"), ("D", some "C")]⟩
      "A" "D" = some "B" := by
  constructor
  · with_unfolding_all rfl
  · rfl

/-- A graph with a negative-weight edge C–D(-5) in a component not reachable
from the source `A`. -/
def gNeg : Graph :=
  ⟨[("A", [("B", 1)]), ("B", [("A", 1)]), ("C", [("D", -5)]), ("D", [("C", -5)])], false⟩

/-- Counterexample to claim C2: `gNeg` contains the edge C→D of weight −5 < 0
and the source `A` is present, yet `run gNeg "A"` does NOT fail — the negative
edge lies in a component Dijkstra never scans, so a full result is returned. -/
theorem C2_counterexample :
    ("D", (-5 : ℚ)) ∈ gNeg.neighbors "C" ∧ ((-5 : ℚ) < 0) ∧
      "A" ∈ dkeys gNeg.adj ∧ (run gNeg "A").isOk = true := by
  refine ⟨by decide, by decide, by decide, ?_⟩
  with_unfolding_all rfl

/-! ### The forwarding-table sort order (claim C7) -/

theorem strLt_trans (a : List Char) : ∀ b c, strLt a b = true → strLt b c = true →
    strLt a c = true := by
  induction a with
  | nil =>
    intro b c hab hbc
    cases b with
    | nil => simp [strLt] at hab
    | cons y ys =>
      cases c with
      | nil => simp [strLt] at hbc
      | cons z zs => simp [strLt]
  | cons x xs ih =>
    intro b c hab hbc
    cases b with
    | nil => simp [strLt] at hab
    | cons y ys =>
      cases c with
      | nil => simp [strLt] at hbc
      | cons z zs =>
        simp only [strLt] at hab hbc ⊢
        by_cases h1 : x.toNat < y.toNat
        · by_cases h2 : y.toNat < z.toNat
          · rw [if_pos (by omega)]
          · rw [if_neg h2] at hbc
            by_cases h2' : z.toNat < y.toNat
            · rw [if_pos h2'] at hbc
              exact absurd hbc (by simp)
            · rw [if_pos (by omega)]
        · rw [if_neg h1] at hab
          by_cases h1' : y.toNat < x.toNat
          · rw [if_pos h1'] at hab
            exact absurd hab (by simp)
          · rw [if_neg h1'] at hab
            by_cases h2 : y.toNat < z.toNat
            · rw [if_pos (by omega)]
            · rw [if_neg h2] at hbc
              by_cases h2' : z.toNat < y.toNat
              · rw [if_pos h2'] at hbc
                exact absurd hbc (by simp)
              · rw [if_neg h2'] at hbc
                rw [if_neg (by omega), if_neg (by omega)]
                exact ih ys zs hab hbc

theorem strLt_total3 (a : List Char) : ∀ b, strLt a b = true ∨ strLt b a = true ∨ a = b := by
  induction a with
  | nil =>
    intro b
    cases b with
    | nil => exact Or.inr (Or.inr rfl)
    | cons y ys => exact Or.inl (by simp [strLt])
  | cons x xs ih =>
    intro b
    cases b with
    | nil => exact Or.inr (Or.inl (by simp [strLt]))
    | cons y ys =>
      by_cases h1 : x.toNat < y.toNat
      · exact Or.inl (by simp [strLt, h1])
      · by_cases h1' : y.toNat < x.toNat
        · exact Or.inr (Or.inl (by simp [strLt, h1']))
        · have hxy : x = y := by
            have : x.toNat = y.toNat := by omega
            calc x = Char.ofNat x.toNat := (Char.ofNat_toNat x).symm
              _ = Char.ofNat y.toNat := by rw [this]
              _ = y := Char.ofNat_toNat y
          subst hxy
          rcases ih ys with h | h | h
          · exact Or.inl (by simp [strLt, h1, h1', h])
          · exact Or.inr (Or.inl (by simp [strLt, h1, h1', h]))
          · exact Or.inr (Or.inr (by rw [h]))

instance : IsTotal (String × Option ℚ) keyLe := by
  constructor
  intro a b
  rcases strLt_total3 a.1.data b.1.data with h | h | h
  · cases ha : a.2.isNone <;> cases hb : b.2.isNone
    · exact Or.inl (Or.inl ⟨by rw [ha, hb], Or.inl h⟩)
    · exact Or.inl (Or.inr ⟨ha, hb⟩)
    · exact Or.inr (Or.inr ⟨hb, ha⟩)
    · exact Or.inl (Or.inl ⟨by rw [ha, hb], Or.inl h⟩)
  · cases ha : a.2.isNone <;> cases hb : b.2.isNone
    · exact Or.inr (Or.inl ⟨by rw [ha, hb], Or.inl h⟩)
    · exact Or.inl (Or.inr ⟨ha, hb⟩)
    · exact Or.inr (Or.inr ⟨hb, ha⟩)
    · exact Or.inr (Or.inl ⟨by rw [ha, hb], Or.inl h⟩)
  · have hs : a.1 = b.1 := String.ext h
    cases ha : a.2.isNone <;> cases hb : b.2.isNone
    · exact Or.inl (Or.inl ⟨by rw [ha, hb], Or.inr hs⟩)
    · exact Or.inl (Or.inr ⟨ha, hb⟩)
    · exact Or.inr (Or.inr ⟨hb, ha⟩)
    · exact Or.inl (Or.inl ⟨by rw [ha, hb], Or.inr hs⟩)

instance : IsTrans (String × Option ℚ) keyLe := by
  constructor
  intro a b c hab hbc
  rcases hab with ⟨hab1, hab2⟩ | ⟨hab1, hab2⟩ <;> rcases hbc with ⟨hbc1, hbc2⟩ | ⟨hbc1, hbc2⟩
  · refine Or.inl ⟨hab1.trans hbc1, ?_⟩
    rcases hab2 with h | h <;> rcases hbc2 with h' | h'
    · exact Or.inl (strLt_trans _ _ _ h h')
    · exact Or.inl (h' ▸ h)
    · exact Or.inl (h ▸ h')
    · exact Or.inr (h.trans h')
  · exact Or.inr ⟨hab1.trans hbc1, hbc2⟩
  · rw [hbc1] at hab2
    exact Or.inr ⟨hab1, hab2⟩
  · rw [hbc1] at hab2
    exact absurd hab2 (by simp)

/-- Claim C7: for every graph and source on which `run` succeeds, the built
forwarding table is sorted by the key «finite cost before infinite cost, then
destination id ascending» (so every unreachable node, in particular one with no
edges, comes after every reachable destination), and its rows enumerate
exactly the destinations of the distance map. -/
theorem C7_forwarding_table_sorted (g : Graph) (source : String) (res : DijkstraResult)
    (_hrun : run g source = .ok res) :
    List.Pairwise (fun e1 e2 : FwdEntry => keyLe (e1.dest, e1.cost) (e2.dest, e2.cost))
      (build_forwarding_table res source) ∧
    List.Perm ((build_forwarding_table res source).map FwdEntry.dest) (dkeys res.dist) := by
  constructor
  · have hsorted : List.Pairwise keyLe (List.insertionSort keyLe res.dist) :=
      List.sorted_insertionSort keyLe res.dist
    refine List.Pairwise.map _ ?_ hsorted
    intro a b hab
    simpa using hab
  · have hperm : List.Perm (List.insertionSort keyLe res.dist) res.dist :=
      List.perm_insertionSort keyLe res.dist
    have : List.Perm ((List.insertionSort keyLe res.dist).map Prod.fst)
        (res.dist.map Prod.fst) := hperm.map Prod.fst
    simpa [build_forwarding_table, List.map_map, dkeys, Function.comp] using this

/-- Witness for C7 on the concrete run of claim C1's topology. -/
theorem C7_forwarding_table_sorted_witness :
    List.Pairwise (fun e1 e2 : FwdEntry => keyLe (e1.dest, e1.cost) (e2.dest, e2.cost))
      (build_forwarding_table
        ⟨[("A", some 0), ("B", some 1), ("C", some 3), ("D", some 4)],
          [("A", none), ("B", some "A"), ("C", some "B"), ("D", some "C")]⟩ "A") ∧
    List.Perm ((build_forwarding_table
        ⟨[("A", some 0), ("B", some 1), ("C", some 3), ("D", some 4)],
          [("A", none), ("B", some "A"), ("C", some "B"), ("D", some "C")]⟩ "A").map
        FwdEntry.dest)
      (dkeys ([("A", some (0 : ℚ)), ("B", some 1), ("C", some 3), ("D", some 4)] :
        List (String × Option ℚ))) :=
  C7_forwarding_table_sorted gC1 "A"
    ⟨[("A", some 0), ("B", some 1), ("C", some 3), ("D", some 4)],
      [("A", none), ("B", some "A"), ("C", some "B"), ("D", some "C")]⟩
    (by with_unfolding_all rfl)

/-! ### Heap-pop lemmas (claim C2) -/

theorem strLt_irrefl (a : List Char) : strLt a a = false := by
  induction a with
  | nil => rfl
  | cons x xs ih => simp [strLt, ih]

theorem pairLt_irrefl (x : ℚ × String) : pairLt x x = false := by
  simp [pairLt, strLt_irrefl]

theorem pairLt_trans (x y z : ℚ × String) (hxy : pairLt x y = true)
    (hyz : pairLt y z = true) : pairLt x z = true := by
  unfold pairLt at hxy hyz ⊢
  by_cases h1 : x.1 < y.1 <;> by_cases h2 : y.1 < z.1
  · rw [if_pos (by linarith)]
  · rw [if_pos h1] at hxy
    rw [if_neg h2] at hyz
    by_cases h2' : z.1 < y.1
    · rw [if_pos h2'] at hyz
      exact absurd hyz (by simp)
    · have hyz1 : y.1 = z.1 := le_antisymm (not_lt.mp h2') (not_lt.mp h2)
      rw [if_pos (by linarith)]
  · rw [if_neg h1] at hxy
    by_cases h1' : y.1 < x.1
    · rw [if_pos h1'] at hxy
      exact absurd hxy (by simp)
    · have hxy1 : x.1 = y.1 := le_antisymm (not_lt.mp h1') (not_lt.mp h1)
      rw [if_pos (by linarith)]
  · rw [if_neg h1] at hxy
    rw [if_neg h2] at hyz
    by_cases h1' : y.1 < x.1
    · rw [if_pos h1'] at hxy
      exact absurd hxy (by simp)
    · by_cases h2' : z.1 < y.1
      · rw [if_pos h2'] at hyz
        exact absurd hyz (by simp)
      · rw [if_neg h1'] at hxy
        rw [if_neg h2'] at hyz
        rw [if_neg (by intro h; exact absurd h (by intro hc; exact absurd hc (by
          have hx1 : x.1 = y.1 := le_antisymm (not_lt.mp h1') (not_lt.mp h1)
          have hy1 : y.1 = z.1 := le_antisymm (not_lt.mp h2') (not_lt.mp h2)
          simp [hx1, hy1])))]
        rw [if_neg (by
          have hx1 : x.1 = y.1 := le_antisymm (not_lt.mp h1') (not_lt.mp h1)
          have hy1 : y.1 = z.1 := le_antisymm (not_lt.mp h2') (not_lt.mp h2)
          simp [hx1, hy1])]
        exact strLt_trans _ _ _ hxy hyz

theorem pairLt_total3 (x y : ℚ × String) :
    pairLt x y = true ∨ pairLt y x = true ∨ x = y := by
  unfold pairLt
  by_cases h1 : x.1 < y.1
  · exact Or.inl (by rw [if_pos h1])
  · by_cases h1' : y.1 < x.1
    · exact Or.inr (Or.inl (by rw [if_pos h1']))
    · have heq : x.1 = y.1 := le_antisymm (not_lt.mp h1') (not_lt.mp h1)
      rcases strLt_total3 x.2.data y.2.data with h | h | h
      · exact Or.inl (by rw [if_neg h1, if_neg h1']; exact h)
      · exact Or.inr (Or.inl (by rw [if_neg (heq ▸ h1'), if_neg (heq ▸ h1)]; exact h))
      · exact Or.inr (Or.inr (Prod.ext heq (String.ext h)))

theorem popMinAux_mem (l : List (ℚ × String)) : ∀ best,
    popMinAux best l = best ∨ popMinAux best l ∈ l := by
  induction l with
  | nil => intro best; exact Or.inl rfl
  | cons p rest ih =>
    intro best
    rcases ih (if pairLt p best then p else best) with h | h
    · rw [popMinAux, h]
      split
      · exact Or.inr (List.mem_cons_self _ _)
      · exact Or.inl rfl
    · exact Or.inr (List.mem_cons_of_mem _ (by rw [popMinAux]; exact h))

theorem popMinAux_min (l : List (ℚ × String)) : ∀ best q, (q = best ∨ q ∈ l) →
    pairLt q (popMinAux best l) = false := by
  induction l with
  | nil =>
    rintro best q (rfl | hq)
    · exact pairLt_irrefl q
    · cases hq
  | cons p rest ih =>
    rintro best q (rfl | hq)
    · rw [popMinAux]
      by_cases hp : pairLt p q = true
      · rw [if_pos hp]
        by_cases hqr : pairLt q (popMinAux p rest) = true
        · have hpr : pairLt p (popMinAux p rest) = false := ih p p (Or.inl rfl)
          exact absurd (pairLt_trans p q _ hp hqr) (by rw [hpr]; simp)
        · simpa using hqr
      · rw [if_neg hp]
        exact ih q q (Or.inl rfl)
    · rcases List.mem_cons.mp hq with rfl | hq'
      · rw [popMinAux]
        by_cases hp : pairLt q best = true
        · rw [if_pos hp]
          exact ih q q (Or.inl rfl)
        · rw [if_neg hp]
          by_cases hqr : pairLt q (popMinAux best rest) = true
          · have hbr : pairLt best (popMinAux best rest) = false := ih best best (Or.inl rfl)
            rcases pairLt_total3 q best with h | h | h
            · exact absurd h hp
            · exact absurd (pairLt_trans best q _ h hqr) (by rw [hbr]; simp)
            · rw [h] at hqr
              exact absurd hqr (by rw [hbr]; simp)
          · simpa using hqr
      · rw [popMinAux]
        exact ih _ q (Or.inr hq')

theorem popMin_none (pq : List (ℚ × String)) : popMin pq = none ↔ pq = [] := by
  cases pq <;> simp [popMin]

theorem popMin_spec (pq : List (ℚ × String)) (m : ℚ × String)
    (rest : List (ℚ × String)) (h : popMin pq = some (m, rest)) :
    m ∈ pq ∧ rest = pq.erase m ∧ ∀ q ∈ pq, pairLt q m = false := by
  cases pq with
  | nil => cases h
  | cons p tail =>
    simp only [popMin, Option.some.injEq, Prod.mk.injEq] at h
    obtain ⟨hm, hrest⟩ := h
    subst hm
    refine ⟨?_, hrest.symm, ?_⟩
    · rcases popMinAux_mem tail p with h | h
      · rw [h]; exact List.mem_cons_self _ _
      · exact List.mem_cons_of_mem _ h
    · intro q hq
      rcases List.mem_cons.mp hq with rfl | hq'
      · exact popMinAux_min tail q q (Or.inl rfl)
      · exact popMinAux_min tail p q (Or.inr hq')

/-! ### Fuel accounting: each pop costs one fuel unit, and at most
`Σ degrees` pushes ever happen because a node's adjacency is scanned only on
its first (visiting) pop. -/

/-- Total adjacency length of the not-yet-visited rows. -/
def sumUnv (adj : List (String × List (String × ℚ))) (vis : List String) : Nat :=
  ((adj.filter fun kv => decide (kv.1 ∉ vis)).map fun kv => kv.2.length).sum

theorem sumUnv_nil_vis (adj : List (String × List (String × ℚ))) :
    sumUnv adj [] = (adj.map fun kv => kv.2.length).sum := by
  unfold sumUnv
  congr 1
  congr 1
  simp

theorem sumUnv_mono (u : String) (vis : List String) :
    ∀ adj, sumUnv adj (u :: vis) ≤ sumUnv adj vis := by
  intro adj
  induction adj with
  | nil => exact le_refl _
  | cons kv rest ih =>
    simp only [sumUnv] at ih
    simp only [sumUnv, List.filter_cons]
    by_cases hmem : kv.1 ∈ vis
    · have hmem' : kv.1 ∈ u :: vis := List.mem_cons_of_mem _ hmem
      simp only [hmem, hmem', not_true_eq_false, decide_False, Bool.false_eq_true, if_false]
      omega
    · by_cases hequ : kv.1 = u
      · have hmem' : kv.1 ∈ u :: vis := by simp [hequ]
        simp only [hmem, hmem', not_true_eq_false, not_false_eq_true, decide_False,
          decide_True, Bool.false_eq_true, if_false, if_true, List.map_cons, List.sum_cons]
        omega
      · have hmem' : kv.1 ∉ u :: vis := by simp [hequ, hmem]
        simp only [hmem, hmem', not_false_eq_true, decide_True, if_true,
          List.map_cons, List.sum_cons]
        omega

theorem sumUnv_visit (u : String) (vis : List String) (hu : u ∉ vis) :
    ∀ adj, sumUnv adj (u :: vis) + ((dget adj u).getD []).length ≤ sumUnv adj vis := by
  intro adj
  induction adj with
  | nil => simp [sumUnv]
  | cons kv rest ih =>
    obtain ⟨k, row⟩ := kv
    simp only [sumUnv] at ih
    simp only [sumUnv, List.filter_cons, dget_cons]
    by_cases hk : k = u
    · subst hk
      have h1 : k ∈ k :: vis := List.mem_cons_self _ _
      have hm := sumUnv_mono k vis rest
      simp only [sumUnv] at hm
      simp only [h1, hu, not_true_eq_false, not_false_eq_true, decide_False, decide_True,
        Bool.false_eq_true, if_false, if_true, if_pos rfl, Option.getD_some,
        List.map_cons, List.sum_cons]
      omega
    · rw [if_neg hk]
      by_cases hmem : k ∈ vis
      · have hmem' : k ∈ u :: vis := List.mem_cons_of_mem _ hmem
        simp only [hmem, hmem', not_true_eq_false, decide_False, Bool.false_eq_true, if_false]
        omega
      · have hmem' : k ∉ u :: vis := by simp [hk, hmem]
        simp only [hmem, hmem', not_false_eq_true, decide_True, if_true,
          List.map_cons, List.sum_cons]
        omega

/-! ### The relaxation scan -/

/-- Everything the loop proof needs to know about one full neighbor scan of a
freshly visited node `u`. -/
theorem scan_spec (u : String) : ∀ (neigh : List (String × ℚ)) (st : DijState),
    u ∈ st.visited →
    (∃ du, dlu st u = some du) →
    (∀ q ∈ st.pq, ∃ dv, dlu st q.2 = some dv ∧ dv ≤ q.1) →
    (∀ v, v ∉ st.visited → ∀ dv, dlu st v = some dv → (dv, v) ∈ st.pq) →
    scan u neigh st = .error negMsg ∨
    ∃ st2, scan u neigh st = .ok st2 ∧
      st2.visited = st.visited ∧
      (∃ pres, st2.pq = pres ++ st.pq ∧ pres.length ≤ neigh.length) ∧
      (∀ x dx, dlu st x = some dx → ∃ dx', dlu st2 x = some dx' ∧ dx' ≤ dx) ∧
      (∀ q ∈ st2.pq, ∃ dv, dlu st2 q.2 = some dv ∧ dv ≤ q.1) ∧
      (∀ x, x ∉ st2.visited → ∀ dx, dlu st2 x = some dx → (dx, x) ∈ st2.pq) ∧
      (∀ p ∈ neigh, (0 : ℚ) ≤ p.2) ∧
      (∀ p ∈ neigh, p.1 ∈ st.visited ∨ ∃ d, (d, p.1) ∈ st2.pq) := by
  intro neigh
  induction neigh with
  | nil =>
    intro st _hu _hfin hpqd hdpq
    right
    exact ⟨st, rfl, rfl, ⟨[], rfl, by simp⟩,
      fun x dx h => ⟨dx, h, le_refl dx⟩, hpqd, hdpq,
      fun p hp => absurd hp (List.not_mem_nil p),
      fun p hp => absurd hp (List.not_mem_nil p)⟩
  | cons p0 rest ih =>
    obtain ⟨v, w⟩ := p0
    intro st hu hfin hpqd hdpq
    by_cases hneg : w < 0
    · left
      simp [scan, hneg]
    · obtain ⟨du, hdu⟩ := hfin
      have hstep : scan u ((v, w) :: rest) st =
          if altLt (du + w) (dlu st v) then
            scan u rest
              { st with
                dist := dset st.dist v (some (du + w)),
                prev := dset st.prev v (some u),
                pq := (du + w, v) :: st.pq }
          else scan u rest st := by
        simp [scan, hneg, hdu]
      by_cases hrel : altLt (du + w) (dlu st v) = true
      · -- relaxation: update dist/prev and push
        have hvu : v ≠ u := by
          intro hvu
          subst hvu
          rw [hdu] at hrel
          simp only [altLt, decide_eq_true_eq] at hrel
          linarith
        set stR : DijState :=
          { st with
            dist := dset st.dist v (some (du + w)),
            prev := dset st.prev v (some u),
            pq := (du + w, v) :: st.pq } with hstR
        have hdluR : ∀ x, x ≠ v → dlu stR x = dlu st x := by
          intro x hx
          simp only [hstR, dlu, dget_dset_ne st.dist v x _ (fun h => hx h.symm)]
        have hdluRv : dlu stR v = some (du + w) := by
          simp only [hstR, dlu, dget_dset_self, Option.bind_some]
          rfl
        have hfinR : ∃ d, dlu stR u = some d := ⟨du, by rw [hdluR u hvu.symm]; exact hdu⟩
        have hpqdR : ∀ q ∈ stR.pq, ∃ dv, dlu stR q.2 = some dv ∧ dv ≤ q.1 := by
          intro q hq
          rcases List.mem_cons.mp hq with rfl | hq'
          · exact ⟨du + w, hdluRv, le_refl _⟩
          · obtain ⟨dv, hdv, hle⟩ := hpqd q hq'
            by_cases hqv : q.2 = v
            · rw [hqv] at hdv
              rw [hdv] at hrel
              simp only [altLt, decide_eq_true_eq] at hrel
              exact ⟨du + w, by rw [hqv]; exact hdluRv, by linarith⟩
            · exact ⟨dv, by rw [hdluR q.2 hqv]; exact hdv, hle⟩
        have hdpqR : ∀ x, x ∉ stR.visited → ∀ dx, dlu stR x = some dx → (dx, x) ∈ stR.pq := by
          intro x hxvis dx hdx
          by_cases hxv : x = v
          · subst hxv
            rw [hdluRv] at hdx
            cases hdx
            exact List.mem_cons_self _ _
          · rw [hdluR x hxv] at hdx
            exact List.mem_cons_of_mem _ (hdpq x hxvis dx hdx)
        rcases ih stR hu hfinR hpqdR hdpqR with herr |
          ⟨st2, hok, hvis2, ⟨pres, hpq2, hlen⟩, hmono, hpqd2, hdpq2, hwnn2, hest2⟩
        · left
          rw [hstep, if_pos hrel]
          exact herr
        · right
          have hok' : scan u ((v, w) :: rest) st = Except.ok st2 := by
            rw [hstep, if_pos hrel]
            exact hok
          have hpq2' : st2.pq = (pres ++ [(du + w, v)]) ++ st.pq := by
            rw [hpq2]
            simp [hstR]
          have hlen' : (pres ++ [(du + w, v)]).length ≤ ((v, w) :: rest).length := by
            simp only [List.length_append, List.length_cons] at hlen ⊢
            simp only [List.length_nil]
            omega
          refine ⟨st2, hok', hvis2, ⟨pres ++ [(du + w, v)], hpq2', hlen'⟩,
            ?_, hpqd2, hdpq2, ?_, ?_⟩
          · intro x dx hdx
            by_cases hxv : x = v
            · subst hxv
              rw [hdx] at hrel
              simp only [altLt, decide_eq_true_eq] at hrel
              obtain ⟨dx', hdx', hle'⟩ := hmono x (du + w) hdluRv
              exact ⟨dx', hdx', by linarith⟩
            · obtain ⟨dx', hdx', hle'⟩ := hmono x dx (by rw [hdluR x hxv]; exact hdx)
              exact ⟨dx', hdx', hle'⟩
          · intro p hp
            rcases List.mem_cons.mp hp with rfl | hp'
            · exact not_lt.mp hneg
            · exact hwnn2 p hp'
          · intro p hp
            rcases List.mem_cons.mp hp with rfl | hp'
            · refine Or.inr ⟨du + w, ?_⟩
              rw [hpq2]
              exact List.mem_append_right _ (List.mem_cons_self _ _)
            · rcases hest2 p hp' with h | ⟨d, hd⟩
              · exact Or.inl h
              · exact Or.inr ⟨d, hd⟩
      · -- no relaxation: state unchanged
        rcases ih st hu ⟨du, hdu⟩ hpqd hdpq with herr |
          ⟨st2, hok, hvis2, ⟨pres, hpq2, hlen⟩, hmono, hpqd2, hdpq2, hwnn2, hest2⟩
        · left
          rw [hstep, if_neg hrel]
          exact herr
        · right
          have hok' : scan u ((v, w) :: rest) st = Except.ok st2 := by
            rw [hstep, if_neg hrel]
            exact hok
          have hlen' : pres.length ≤ ((v, w) :: rest).length := by
            simp only [List.length_cons]
            omega
          refine ⟨st2, hok', hvis2, ⟨pres, hpq2, hlen'⟩, hmono, hpqd2, hdpq2, ?_, ?_⟩
          · intro p hp
            rcases List.mem_cons.mp hp with rfl | hp'
            · exact not_lt.mp hneg
            · exact hwnn2 p hp'
          · intro p hp
            rcases List.mem_cons.mp hp with rfl | hp'
            · -- `alt < dist[v]` failed, so `dist[v]` is finite
              cases hv : dlu st v with
              | none => rw [hv] at hrel; exact absurd rfl hrel
              | some dv =>
                by_cases hvvis : v ∈ st.visited
                · exact Or.inl hvvis
                · refine Or.inr ⟨dv, ?_⟩
                  rw [hpq2]
                  exact List.mem_append_right _ (hdpq v hvvis dv hv)
            · rcases hest2 p hp' with h | ⟨d, hd⟩
              · exact Or.inl h
              · exact Or.inr ⟨d, hd⟩

/-! ### The loop invariant -/

/-- Invariant of the `while pq` loop.  `wnn`: every scanned (visited) node had
only non-negative out-edges; `closed`: every neighbor of a visited node is
visited or pending in the queue; `pqdist`: every queued pair over-approximates
the (finite) stored distance of its node; `distpq`: every unvisited node with a
finite distance has its current distance pending in the queue; `srcfin`: the
source keeps a finite distance. -/
structure Inv (g : Graph) (source : String) (st : DijState) : Prop where
  wnn : ∀ u ∈ st.visited, ∀ p ∈ g.neighbors u, (0 : ℚ) ≤ p.2
  closed : ∀ u ∈ st.visited, ∀ p ∈ g.neighbors u, p.1 ∈ st.visited ∨ ∃ d, (d, p.1) ∈ st.pq
  pqdist : ∀ q ∈ st.pq, ∃ dv, dlu st q.2 = some dv ∧ dv ≤ q.1
  distpq : ∀ v, v ∉ st.visited → ∀ dv, dlu st v = some dv → (dv, v) ∈ st.pq
  srcfin : ∃ d0, dlu st source = some d0

/-- Running the loop with enough fuel either raises the negative-weight error
or drains the queue while preserving the invariant. -/
theorem runLoop_spec (g : Graph) (source : String) :
    ∀ (fuel : Nat) (st : DijState), Inv g source st →
      st.pq.length + sumUnv g.adj st.visited ≤ fuel →
      runLoop g fuel st = .error negMsg ∨
      ∃ st', runLoop g fuel st = .ok st' ∧ st'.pq = [] ∧ Inv g source st' := by
  intro fuel
  induction fuel with
  | zero =>
    intro st hinv hfuel
    right
    have hpq : st.pq = [] := List.length_eq_zero.mp (by omega)
    exact ⟨st, rfl, hpq, hinv⟩
  | succ n ih =>
    intro st hinv hfuel
    rcases hpop : popMin st.pq with _ | ⟨⟨du, u⟩, rest⟩
    · right
      refine ⟨st, ?_, (popMin_none st.pq).mp hpop, hinv⟩
      simp [runLoop, hpop]
    · obtain ⟨hmem, hrest, hmin⟩ := popMin_spec st.pq (du, u) rest hpop
      have hpqpos : 0 < st.pq.length := List.length_pos.mpr (List.ne_nil_of_mem hmem)
      have hrestlen : rest.length = st.pq.length - 1 := by
        rw [hrest]
        exact List.length_erase_of_mem hmem
      by_cases hvis : u ∈ st.visited
      · -- pop of an already visited node: drop it
        have heq : runLoop g (n + 1) st = runLoop g n { st with pq := rest } := by
          simp [runLoop, hpop, hvis]
        have hinv' : Inv g source { st with pq := rest } := by
          constructor
          · exact hinv.wnn
          · intro u0 hu0 p hp
            rcases hinv.closed u0 hu0 p hp with h | ⟨d, hd⟩
            · exact Or.inl h
            · by_cases hdp : (d, p.1) = (du, u)
              · refine Or.inl ?_
                have : p.1 = u := congrArg Prod.snd hdp
                rw [this]
                exact hvis
              · refine Or.inr ⟨d, ?_⟩
                rw [hrest]
                exact (List.mem_erase_of_ne hdp).mpr hd
          · intro q hq
            exact hinv.pqdist q (List.erase_subset _ _ (hrest ▸ hq))
          · intro v hv dv hdv
            have hne : (dv, v) ≠ (du, u) := by
              intro hc
              have : v = u := congrArg Prod.snd hc
              exact hv (this ▸ hvis)
            rw [hrest]
            exact (List.mem_erase_of_ne hne).mpr (hinv.distpq v hv dv hdv)
          · exact hinv.srcfin
        have hfuel' : rest.length + sumUnv g.adj st.visited ≤ n := by omega
        rcases ih { st with pq := rest } hinv' hfuel' with herr | ⟨st', hok, hpq', hinv''⟩
        · left
          rw [heq]
          exact herr
        · right
          exact ⟨st', by rw [heq]; exact hok, hpq', hinv''⟩
      · -- first pop of `u`: `d_u = dist[u]`, so the stale check fails and we scan
        obtain ⟨dv0, hdv0, hdv0le⟩ := hinv.pqdist (du, u) hmem
        have hmin' := hmin (dv0, u) (hinv.distpq u hvis dv0 hdv0)
        have hdueq : dv0 = du := by
          by_contra hne
          have hlt : dv0 < du := lt_of_le_of_ne hdv0le hne
          have : pairLt (dv0, u) (du, u) = true := by simp [pairLt, hlt]
          rw [hmin'] at this
          cases this
        have hstale : distGt du (dlu st u) = false := by
          rw [hdv0, hdueq]
          simp [distGt]
        have hu1 : u ∈ ({ st with pq := rest, visited := u :: st.visited } : DijState).visited :=
          List.mem_cons_self _ _
        have hfin1 : ∃ d, dlu { st with pq := rest, visited := u :: st.visited } u = some d :=
          ⟨dv0, hdv0⟩
        have hpqd1 : ∀ q ∈ ({ st with pq := rest, visited := u :: st.visited } : DijState).pq,
            ∃ dv, dlu { st with pq := rest, visited := u :: st.visited } q.2 = some dv ∧
              dv ≤ q.1 := by
          intro q hq
          exact hinv.pqdist q (List.erase_subset _ _ (hrest ▸ hq))
        have hdpq1 : ∀ x, x ∉ ({ st with pq := rest, visited := u :: st.visited } :
            DijState).visited → ∀ dx,
            dlu { st with pq := rest, visited := u :: st.visited } x = some dx →
            (dx, x) ∈ ({ st with pq := rest, visited := u :: st.visited } : DijState).pq := by
          intro x hx dx hdx
          have hxu : x ≠ u := fun hc => hx (hc ▸ List.mem_cons_self _ _)
          have hxvis : x ∉ st.visited := fun hc => hx (List.mem_cons_of_mem _ hc)
          have hne : (dx, x) ≠ (du, u) := by
            intro hc
            exact hxu (congrArg Prod.snd hc)
          show (dx, x) ∈ rest
          rw [hrest]
          exact (List.mem_erase_of_ne hne).mpr (hinv.distpq x hxvis dx hdx)
        rcases scan_spec u (g.neighbors u) { st with pq := rest, visited := u :: st.visited }
            hu1 hfin1 hpqd1 hdpq1 with herr |
          ⟨st2, hok2, hvis2, ⟨pres, hpq2, hpres⟩, hmono, hpqd2, hdpq2, hwnn2, hest2⟩
        · left
          simp [runLoop, hpop, hvis, hstale, herr]
        · have heq : runLoop g (n + 1) st = runLoop g n st2 := by
            simp [runLoop, hpop, hvis, hstale, hok2]
          have hinv2 : Inv g source st2 := by
            constructor
            · intro u0 hu0 p hp
              rw [hvis2] at hu0
              rcases List.mem_cons.mp hu0 with rfl | hu0'
              · exact hwnn2 p hp
              · exact hinv.wnn u0 hu0' p hp
            · intro u0 hu0 p hp
              rw [hvis2] at hu0
              rcases List.mem_cons.mp hu0 with rfl | hu0'
              · rcases hest2 p hp with h | ⟨d, hd⟩
                · refine Or.inl ?_
                  rw [hvis2]
                  exact h
                · exact Or.inr ⟨d, hd⟩
              · rcases hinv.closed u0 hu0' p hp with h | ⟨d, hd⟩
                · refine Or.inl ?_
                  rw [hvis2]
                  exact List.mem_cons_of_mem _ h
                · by_cases hdp : (d, p.1) = (du, u)
                  · refine Or.inl ?_
                    have : p.1 = u := congrArg Prod.snd hdp
                    rw [hvis2, this]
                    exact List.mem_cons_self _ _
                  · refine Or.inr ⟨d, ?_⟩
                    rw [hpq2]
                    refine List.mem_append_right _ ?_
                    show (d, p.1) ∈ rest
                    rw [hrest]
                    exact (List.mem_erase_of_ne hdp).mpr hd
            · exact hpqd2
            · exact hdpq2
            · obtain ⟨d0, hd0⟩ := hinv.srcfin
              obtain ⟨d0', hd0', _⟩ := hmono source d0 hd0
              exact ⟨d0', hd0'⟩
          have hfuel2 : st2.pq.length + sumUnv g.adj st2.visited ≤ n := by
            have hv2 : st2.visited = u :: st.visited := hvis2
            have hlen2 : st2.pq.length = pres.length + rest.length := by
              rw [hpq2]
              simp
            have hvisitcost := sumUnv_visit u st.visited hvis g.adj
            have hnb : (g.neighbors u).length = ((dget g.adj u).getD []).length := rfl
            rw [hv2, hlen2]
            omega
          rcases ih st2 hinv2 hfuel2 with herr | ⟨st', hok', hpq', hinv''⟩
          · left
            rw [heq]
            exact herr
          · right
            exact ⟨st', by rw [heq]; exact hok', hpq', hinv''⟩

theorem dget_map_const {α β γ : Type} [DecidableEq α] (l : List (α × β)) (c : γ) (a : α) :
    dget (l.map fun kv => (kv.1, c)) a = (dget l a).map fun _ => c := by
  induction l with
  | nil => rfl
  | cons kv rest ih =>
    obtain ⟨k, v⟩ := kv
    by_cases h : k = a <;> simp [h, ih]

/-- `b` is a direct neighbor of `a` in the adjacency. -/
def hasEdge (g : Graph) (a b : String) : Prop := ∃ w, (b, w) ∈ g.neighbors a

/-- `v` is reachable from `s` along graph edges. -/
def reachable (g : Graph) (s v : String) : Prop := Relation.ReflTransGen (hasEdge g) s v

/-- Claim C2 amended: if some edge of weight `< 0` hangs off a node REACHABLE
from the source (and the source is present), `run` raises
`ValueError("Dijkstra requiere pesos no negativos")` and returns no result.
(The unrestricted claim is refuted by `C2_counterexample`: a negative edge in
a component the scan never reaches is not detected.) -/
theorem C2_neg_edge_reachable_error (g : Graph) (source u v : String) (w : ℚ)
    (hsrc : source ∈ dkeys g.adj) (hreach : reachable g source u)
    (hedge : (v, w) ∈ g.neighbors u) (hneg : w < 0) :
    run g source = .error negMsg := by
  have hdistsrc : dlu
      { dist := dset (g.adj.map fun kv => (kv.1, (none : Option ℚ))) source (some 0),
        prev := g.adj.map fun kv => (kv.1, (none : Option String)),
        pq := [((0 : ℚ), source)], visited := [] } source = some 0 := by
    simp [dlu, dget_dset_self]
  have hdistother : ∀ x, x ≠ source → dlu
      { dist := dset (g.adj.map fun kv => (kv.1, (none : Option ℚ))) source (some 0),
        prev := g.adj.map fun kv => (kv.1, (none : Option String)),
        pq := [((0 : ℚ), source)], visited := [] } x = none := by
    intro x hx
    have h1 : dget (dset (g.adj.map fun kv => (kv.1, (none : Option ℚ))) source (some 0)) x
        = dget (g.adj.map fun kv => (kv.1, (none : Option ℚ))) x :=
      dget_dset_ne _ source x _ (fun hc => hx hc.symm)
    simp only [dlu, h1, dget_map_const]
    cases dget g.adj x <;> rfl
  have hinv0 : Inv g source
      { dist := dset (g.adj.map fun kv => (kv.1, (none : Option ℚ))) source (some 0),
        prev := g.adj.map fun kv => (kv.1, (none : Option String)),
        pq := [((0 : ℚ), source)], visited := [] } := by
    constructor
    · intro u0 hu0
      exact absurd hu0 (List.not_mem_nil u0)
    · intro u0 hu0
      exact absurd hu0 (List.not_mem_nil u0)
    · intro q hq
      rcases List.mem_singleton.mp hq with rfl
      exact ⟨0, hdistsrc, le_refl 0⟩
    · intro x hx dx hdx
      by_cases hxs : x = source
      · subst hxs
        rw [hdistsrc] at hdx
        cases hdx
        exact List.mem_singleton.mpr rfl
      · rw [hdistother x hxs] at hdx
        cases hdx
    · exact ⟨0, hdistsrc⟩
  have hfuel0 :
      ([((0 : ℚ), source)] : List (ℚ × String)).length + sumUnv g.adj [] ≤ 1 + edgeCount g := by
    rw [sumUnv_nil_vis]
    simp [edgeCount]
  rcases runLoop_spec g source (1 + edgeCount g)
      { dist := dset (g.adj.map fun kv => (kv.1, (none : Option ℚ))) source (some 0),
        prev := g.adj.map fun kv => (kv.1, (none : Option String)),
        pq := [((0 : ℚ), source)], visited := [] } hinv0 hfuel0 with herr |
    ⟨st', hok, hpq', hinv'⟩
  · unfold run
    rw [if_pos hsrc, herr]
  · exfalso
    have hsrcvis : source ∈ st'.visited := by
      by_contra hns
      obtain ⟨d0, hd0⟩ := hinv'.srcfin
      have hmem := hinv'.distpq source hns d0 hd0
      rw [hpq'] at hmem
      exact absurd hmem (List.not_mem_nil _)
    have hvisited : ∀ x, reachable g source x → x ∈ st'.visited := by
      intro x hx
      induction hx with
      | refl => exact hsrcvis
      | tail _hab hbc ihab =>
        obtain ⟨wbc, hwbc⟩ := hbc
        rcases hinv'.closed _ ihab _ hwbc with h | ⟨d, hd⟩
        · exact h
        · rw [hpq'] at hd
          exact absurd hd (List.not_mem_nil _)
    exact absurd (hinv'.wnn u (hvisited u hreach) (v, w) hedge) (not_le.mpr hneg)

/-- Witness for the amended C2: the source itself carries an edge of weight
−1, so the run fails with the negative-weight error. -/
theorem C2_neg_edge_reachable_error_witness :
    run ⟨[("A", [("B", -1)]), ("B", [("A", -1)])], false⟩ "A" = .error negMsg :=
  C2_neg_edge_reachable_error ⟨[("A", [("B", -1)]), ("B", [("A", -1)])], false⟩ "A" "A" "B"
    (-1) (by decide) Relation.ReflTransGen.refl (by decide) (by decide)

end Dijkstra

/-! ## Forwarding dispatcher — `src/parte2/lsr/forwarding.py` with the
`Routing` state of `src/routing.py`

`print` logging is ignored; `self.send(peer, msg)` calls are collected as a
list of `(peer, message)` datagrams; `time.time()` is the explicit `now`. -/

def PROTO_DIJKSTRA : String := "dijkstra"
def PROTO_FLOODING : String := "flooding"
def PROTO_LSR : String := "lsr"
def TYPE_HELLO : String := "hello"
def TYPE_INFO : String := "info"
def TYPE_DATA : String := "message"
def MAX_TTL : Int := 16
def SPF_DEBOUNCE_SEC : ℚ := 1

structure Routing where
  node_id : String
  mode : String
  table : List (String × String)
  costs_to_neighbors : List (String × ℚ)
  lsdb : LSDB
  spf_deadline : ℚ

/-- `Routing.update_neighbor_cost`: store the measured cost and report whether
it changed (`old != cost`; a missing old value counts as changed). -/
def Routing.update_neighbor_cost (r : Routing) (n : String) (cost : ℚ) : Bool × Routing :=
  (decide (dget r.costs_to_neighbors n ≠ some cost),
    { r with costs_to_neighbors := dset r.costs_to_neighbors n cost })

/-- `Routing.schedule_spf`. -/
def Routing.schedule_spf (r : Routing) (now : ℚ) : Routing :=
  { r with spf_deadline := now + SPF_DEBOUNCE_SEC }

/-- `Routing.next_hop`. -/
def Routing.next_hop (r : Routing) (dst : String) : Option String :=
  if r.mode = PROTO_FLOODING then none
  else if r.mode = PROTO_DIJKSTRA ∧ (dget r.table dst).isSome then dget r.table dst
  else if r.mode = PROTO_LSR ∧ (dget r.table dst).isSome then dget r.table dst
  else none

/-- Typed view of the message dict fields `on_message` reads; the payload
carries the union of the `hello`/`info`/`message` payload fields. -/
structure FPayload where
  t0 : Option ℚ
  origin : Option String
  seq : Option Int
  age : Option ℚ
  links : List (String × ℚ)
  dst : Option String
  msg : Option String

structure FMsg where
  id_ : Option String
  proto : Option String
  mtype : Option String
  from_ : Option String
  to_ : Option String
  ttl : Option Int
  headers : List (List (String × String))
  payload : FPayload

/-- ASCII whitespace (space, tab, newline, carriage return). -/
def isWsChar (c : Char) : Bool :=
  decide (c.toNat = 32 ∨ c.toNat = 9 ∨ c.toNat = 10 ∨ c.toNat = 13)

/-- Python `str.strip()` restricted to ASCII whitespace. -/
def stripChars (cs : List Char) : List Char :=
  ((cs.dropWhile isWsChar).reverse.dropWhile isWsChar).reverse

def stripStr (s : String) : String := ⟨stripChars s.data⟩

/-- `dst_raw.split(".")[-1]`: the segment after the last dot. -/
def lastDotSeg (cs : List Char) : List Char :=
  cs.foldl (fun acc c => if c = '.' then [] else acc ++ [c]) []

/-- `dst_raw.split(".")[-1].strip()`. -/
def dstBare (s : String) : String := ⟨stripChars (lastDotSeg s.data)⟩

structure Forwarding where
  node_id : String
  routing : Routing
  cache : FloodingCache
  lsp_seq : Int
  last_hello_sent : List (String × ℚ)

/-- `Forwarding.on_message`: decrement the TTL (dropping silently at `≤ 0`),
then dispatch on the message type: HELLO updates the measured neighbor cost
(scheduling SPF on change), LSR INFO applies the LSP to the LSDB and re-floods
it to every neighbor but the sender, DATA is delivered locally, forwarded to
the routing table's next hop, or — lacking a route — flooded with
de-duplication to every neighbor but the sender, with a `{via: node}` header
appended.  `pl.get("origin")`'s `None` default is modelled as `""`. -/
def Forwarding.on_message (f : Forwarding) (now : ℚ) (peer : String) (msg : FMsg) :
    Forwarding × List (String × FMsg) :=
  if msg.ttl.getD MAX_TTL - 1 ≤ 0 then (f, [])
  else
    let m : FMsg := { msg with ttl := some (msg.ttl.getD MAX_TTL - 1) }
    if m.mtype = some TYPE_HELLO then
      match m.payload.t0 with
      | none => (f, [])
      | some t0 =>
        if (dget f.routing.costs_to_neighbors peer).isSome then
          let res := f.routing.update_neighbor_cost peer (max (1/10) (now - t0))
          if res.1 then ({ f with routing := res.2.schedule_spf now }, [])
          else ({ f with routing := res.2 }, [])
        else (f, [])
    else if m.mtype = some TYPE_INFO ∧ m.proto = some PROTO_LSR then
      let res := f.routing.lsdb.apply_lsp now (m.payload.origin.getD "")
        (m.payload.seq.getD 0) (m.payload.age.getD LSP_AGE_SEC) m.payload.links
      if res.1 then
        ({ f with routing := Routing.schedule_spf { f.routing with lsdb := res.2 } now },
          ((dkeys f.routing.costs_to_neighbors).filter fun n => decide (n ≠ peer)).map
            fun n => (n, m))
      else (f, [])
    else if m.mtype = some TYPE_DATA then
      let dst_raw : Option String :=
        match m.to_ with
        | some s => if s = "" then m.payload.dst else some s
        | none => m.payload.dst
      let bareLocal : Bool :=
        match dst_raw with
        | some s => decide (dstBare s ≠ "" ∧ dstBare s = stripStr f.node_id)
        | none => false
      if (dst_raw = some "*" ∨ bareLocal = true) ∧ dst_raw ≠ some "*" then (f, [])
      else
        let nh : Option String :=
          match dst_raw with
          | some s => if s ≠ "*" ∧ dstBare s ≠ "" then f.routing.next_hop (dstBare s) else none
          | none => none
        match nh with
        | some n => (f, [(n, m)])
        | none =>
          let res := f.cache.should_forward now (m.from_.getD "?") (m.id_.getD "?")
          if res.1 then
            ({ f with cache := res.2 },
              ((dkeys f.routing.costs_to_neighbors).filter fun n => decide (n ≠ peer)).map
                fun n => (n, { m with headers := m.headers ++ [[("via", f.node_id)]] }))
          else ({ f with cache := res.2 }, [])
    else (f, [])

/-- Claim C8: a message whose `ttl` field is present and at most 1 is dropped
silently by `on_message`: the decremented TTL is `≤ 0`, nothing is sent or
forwarded, and the whole dispatcher state — neighbor costs, LSDB, routing
table, dedup cache — is unchanged. -/
theorem C8_ttl_exhausted_drop (f : Forwarding) (now : ℚ) (peer : String) (msg : FMsg)
    (t : Int) (httl : msg.ttl = some t) (hle : t ≤ 1) :
    f.on_message now peer msg = (f, []) := by
  unfold Forwarding.on_message
  rw [httl]
  simp only [Option.getD_some]
  rw [if_pos (by omega)]

/-- Witness for C8: a concrete `hello` message with `ttl = 1` arriving at a
dispatcher with one measured neighbor is dropped without any state change. -/
theorem C8_ttl_exhausted_drop_witness :
    Forwarding.on_message
      ⟨"A", ⟨"A", "lsr", [], [("B", 1)], ⟨[]⟩, 0⟩, FloodingCache.default, 0, []⟩ 100 "B"
      ⟨some "m1", some "lsr", some "hello", some "B", some "A", some 1, [],
        ⟨some 99, none, none, none, [], none, none⟩⟩ =
    (⟨"A", ⟨"A", "lsr", [], [("B", 1)], ⟨[]⟩, 0⟩, FloodingCache.default, 0, []⟩, []) :=
  C8_ttl_exhausted_drop _ 100 "B" _ 1 rfl (by decide)

/-! ## Message framing — `src/parte2/lsr/messages.py` (`encode`/`decode`)

`encode` is `(json.dumps(msg) + "\n").encode("utf-8")` and `decode` is
`json.loads(line.decode("utf-8").strip())`.  JSON values are modelled by
`JVal` (with arbitrary-precision integers for the numeric fields; dict
insertion order is kept).  The printer follows `json.dumps`'s defaults:
`ensure_ascii=True` (every non-ASCII and control character becomes a `\uXXXX`
escape, astral characters a surrogate pair) and separators `", "`/`": "`.
The parser models `json.loads` as a recursive-descent prefix parser; byte
strings are abstracted as character lists. -/

namespace Messages

inductive JVal where
  | jnull
  | jbool (b : Bool)
  | jint (n : Int)
  | jstr (s : String)
  | jarr (xs : List JVal)
  | jobj (kvs : List (String × JVal))

/-- Lower-case hex digit (also used as a decimal digit for values below 10). -/
def hexDig (n : Nat) : Char := if n < 10 then Char.ofNat (48 + n) else Char.ofNat (87 + n)

def hex4 (n : Nat) : List Char :=
  [hexDig (n / 4096 % 16), hexDig (n / 256 % 16), hexDig (n / 16 % 16), hexDig (n % 16)]

/-- `json.dumps` escaping of one character under `ensure_ascii=True`. -/
def escChar (c : Char) : List Char :=
  if c = '"' then ['\\', '"']
  else if c = '\\' then ['\\', '\\']
  else if c = Char.ofNat 10 then ['\\', 'n']
  else if c = Char.ofNat 9 then ['\\', 't']
  else if c = Char.ofNat 13 then ['\\', 'r']
  else if c = Char.ofNat 8 then ['\\', 'b']
  else if c = Char.ofNat 12 then ['\\', 'f']
  else if c.toNat < 32 ∨ 126 < c.toNat then
    if c.toNat ≤ 65535 then '\\' :: 'u' :: hex4 c.toNat
    else '\\' :: 'u' :: hex4 (55296 + (c.toNat - 65536) / 1024) ++
      ('\\' :: 'u' :: hex4 (56320 + (c.toNat - 65536) % 1024))
  else [c]

def escStr : List Char → List Char
  | [] => []
  | c :: cs => escChar c ++ escStr cs

def printStr (s : String) : List Char := '"' :: (escStr s.data ++ ['"'])

/-- Decimal printer; the fuel (≥ the digit count) keeps recursion structural. -/
def printNatAux : Nat → Nat → List Char
  | 0, _ => []
  | fuel + 1, n => if n < 10 then [hexDig n] else printNatAux fuel (n / 10) ++ [hexDig (n % 10)]

def printNat (n : Nat) : List Char := printNatAux (n + 1) n

/-- Python `repr` of an `int`. -/
def printInt (i : Int) : List Char :=
  if i < 0 then '-' :: printNat (-i).toNat else printNat i.toNat

mutual

/-- `json.dumps` with the default separators. -/
def printVal : JVal → List Char
  | .jnull => ['n', 'u', 'l', 'l']
  | .jbool true => ['t', 'r', 'u', 'e']
  | .jbool false => ['f', 'a', 'l', 's', 'e']
  | .jint i => printInt i
  | .jstr s => printStr s
  | .jarr [] => ['[', ']']
  | .jarr (x :: xs) => '[' :: (printArr x xs ++ [']'])
  | .jobj [] => [Char.ofNat 123, Char.ofNat 125]
  | .jobj (kv :: kvs) => Char.ofNat 123 :: (printObj kv kvs ++ [Char.ofNat 125])
termination_by v => sizeOf v

def printArr : JVal → List JVal → List Char
  | x, [] => printVal x
  | x, y :: ys => printVal x ++ (',' :: ' ' :: printArr y ys)
termination_by x xs => sizeOf x + sizeOf xs

def printObj : String × JVal → List (String × JVal) → List Char
  | (k, v), [] => printStr k ++ (':' :: ' ' :: printVal v)
  | (k, v), kv :: kvs => printStr k ++ (':' :: ' ' :: printVal v) ++ (',' :: ' ' :: printObj kv kvs)
termination_by kv kvs => sizeOf kv + sizeOf kvs

end

def skipWs (cs : List Char) : List Char := cs.dropWhile isWsChar

def isDigitChar (c : Char) : Bool := decide (48 ≤ c.toNat ∧ c.toNat ≤ 57)

def headDigit : List Char → Bool
  | [] => false
  | c :: _ => isDigitChar c

def headIs (c : Char) : List Char → Bool
  | [] => false
  | c' :: _ => c' = c

def hexVal (c : Char) : Option Nat :=
  if 48 ≤ c.toNat ∧ c.toNat ≤ 57 then some (c.toNat - 48)
  else if 97 ≤ c.toNat ∧ c.toNat ≤ 102 then some (c.toNat - 87)
  else if 65 ≤ c.toNat ∧ c.toNat ≤ 70 then some (c.toNat - 55)
  else none

/-- Consume a maximal run of decimal digits, folding them onto `acc`. -/
def parseDigits : List Char → Nat → Nat × List Char
  | [], acc => (acc, [])
  | c :: cs, acc =>
    if isDigitChar c then parseDigits cs (acc * 10 + (c.toNat - 48)) else (acc, c :: cs)

/-- Parse an (optionally negated) integer literal. -/
def parseNumber (cs : List Char) : Option (JVal × List Char) :=
  match cs with
  | [] => none
  | c :: cs' =>
    if c = '-' then
      if headDigit cs' then
        some (.jint (-(Int.ofNat (parseDigits cs' 0).1)), (parseDigits cs' 0).2)
      else none
    else if isDigitChar c then
      some (.jint (Int.ofNat (parseDigits (c :: cs') 0).1), (parseDigits (c :: cs') 0).2)
    else none

/-- Decode the four hex digits of the low half of a surrogate pair and
recombine it with the high half `n1` as `json.loads` does. -/
def parseULowU (k : List Char → Option (List Char × List Char)) (n1 : Nat)
    (g1 g2 g3 g4 : Char) (r2 : List Char) : Option (List Char × List Char) :=
  match hexVal g1, hexVal g2, hexVal g3, hexVal g4 with
  | some a2, some b2, some c2, some d2 =>
    if 56320 ≤ ((a2 * 16 + b2) * 16 + c2) * 16 + d2 ∧
        ((a2 * 16 + b2) * 16 + c2) * 16 + d2 ≤ 57343 then
      (k r2).map fun p =>
        (Char.ofNat (65536 + (n1 - 55296) * 1024 +
          (((a2 * 16 + b2) * 16 + c2) * 16 + d2 - 56320)) :: p.1, p.2)
    else none
  | _, _, _, _ => none

/-- After a high surrogate of value `n1`, a `\uXXXX` low surrogate must follow. -/
def parseULow (k : List Char → Option (List Char × List Char)) (n1 : Nat) :
    List Char → Option (List Char × List Char)
  | '\\' :: 'u' :: g1 :: g2 :: g3 :: g4 :: r2 => parseULowU k n1 g1 g2 g3 g4 r2
  | _ => none

/-- Decode a `\uXXXX` escape: a lone BMP scalar, or a high surrogate that must
be followed by a low surrogate. -/
def parseU (k : List Char → Option (List Char × List Char))
    (h1 h2 h3 h4 : Char) (r : List Char) : Option (List Char × List Char) :=
  match hexVal h1, hexVal h2, hexVal h3, hexVal h4 with
  | some a, some b, some c3, some d =>
    if 55296 ≤ ((a * 16 + b) * 16 + c3) * 16 + d ∧
        ((a * 16 + b) * 16 + c3) * 16 + d ≤ 56319 then
      parseULow k (((a * 16 + b) * 16 + c3) * 16 + d) r
    else if 56320 ≤ ((a * 16 + b) * 16 + c3) * 16 + d ∧
        ((a * 16 + b) * 16 + c3) * 16 + d ≤ 57343 then none
    else (k r).map fun p =>
      (Char.ofNat (((a * 16 + b) * 16 + c3) * 16 + d) :: p.1, p.2)
  | _, _, _, _ => none

/-- Decode one backslash escape, calling `k` on the remaining input. -/
def parseEsc (k : List Char → Option (List Char × List Char)) :
    List Char → Option (List Char × List Char)
  | '"' :: r => (k r).map fun p => ('"' :: p.1, p.2)
  | '\\' :: r => (k r).map fun p => ('\\' :: p.1, p.2)
  | '/' :: r => (k r).map fun p => ('/' :: p.1, p.2)
  | 'n' :: r => (k r).map fun p => (Char.ofNat 10 :: p.1, p.2)
  | 't' :: r => (k r).map fun p => (Char.ofNat 9 :: p.1, p.2)
  | 'r' :: r => (k r).map fun p => (Char.ofNat 13 :: p.1, p.2)
  | 'b' :: r => (k r).map fun p => (Char.ofNat 8 :: p.1, p.2)
  | 'f' :: r => (k r).map fun p => (Char.ofNat 12 :: p.1, p.2)
  | 'u' :: h1 :: h2 :: h3 :: h4 :: r => parseU k h1 h2 h3 h4 r
  | _ => none

/-- Parse the body of a string literal (after the opening quote), decoding the
escapes `json.dumps` emits and recombining surrogate pairs like `json.loads`.
The fuel (one unit per decoded character; callers pass the input length) keeps
the recursion structural. -/
def parseStrBody : Nat → List Char → Option (List Char × List Char)
  | 0, _ => none
  | _ + 1, [] => none
  | fuel + 1, c :: rest =>
    if c = '"' then some ([], rest)
    else if c = '\\' then parseEsc (parseStrBody fuel) rest
    else (parseStrBody fuel rest).map fun p => (c :: p.1, p.2)

/-- Parse a string-literal body; the input length bounds the decoded length. -/
def parseStr (cs : List Char) : Option (List Char × List Char) :=
  parseStrBody (cs.length + 1) cs

mutual

/-- Recursive-descent JSON value parser (prefix semantics); the fuel bounds
the nesting and element recursion. -/
def parseVal : Nat → List Char → Option (JVal × List Char)
  | 0, _ => none
  | fuel + 1, cs =>
    match cs with
    | [] => none
    | c :: rest =>
      if c = 'n' then
        match rest with
        | 'u' :: 'l' :: 'l' :: r => some (.jnull, r)
        | _ => none
      else if c = 't' then
        match rest with
        | 'r' :: 'u' :: 'e' :: r => some (.jbool true, r)
        | _ => none
      else if c = 'f' then
        match rest with
        | 'a' :: 'l' :: 's' :: 'e' :: r => some (.jbool false, r)
        | _ => none
      else if c = '"' then
        (parseStr rest).map fun p => (.jstr ⟨p.1⟩, p.2)
      else if c = '[' then
        if headIs ']' (skipWs rest) then some (.jarr [], (skipWs rest).tail)
        else (parseElems fuel (skipWs rest)).map fun p => (.jarr p.1, p.2)
      else if c = Char.ofNat 123 then
        if headIs (Char.ofNat 125) (skipWs rest) then some (.jobj [], (skipWs rest).tail)
        else (parseMembers fuel (skipWs rest)).map fun p => (.jobj p.1, p.2)
      else parseNumber (c :: rest)

def parseElems : Nat → List Char → Option (List JVal × List Char)
  | 0, _ => none
  | fuel + 1, cs =>
    match parseVal fuel cs with
    | none => none
    | some (v, r) =>
      match skipWs r with
      | ',' :: r2 => (parseElems fuel (skipWs r2)).map fun p => (v :: p.1, p.2)
      | ']' :: r2 => some ([v], r2)
      | _ => none

def parseMembers : Nat → List Char → Option (List (String × JVal) × List Char)
  | 0, _ => none
  | fuel + 1, cs =>
    match cs with
    | '"' :: r =>
      match parseStr r with
      | none => none
      | some (k, r1) =>
        match skipWs r1 with
        | ':' :: r2 =>
          match parseVal fuel (skipWs r2) with
          | none => none
          | some (v, r3) =>
            match skipWs r3 with
            | ',' :: r4 => (parseMembers fuel (skipWs r4)).map fun p => ((⟨k⟩, v) :: p.1, p.2)
            | '\x7d' :: r4 => some ([(⟨k⟩, v)], r4)
            | _ => none
        | _ => none
    | _ => none

end

/-- `json.loads`: parse the whole (whitespace-trimmed) text. -/
def loads (cs : List Char) : Option JVal :=
  match parseVal (cs.length + 1) (skipWs cs) with
  | some (v, r) => if skipWs r = [] then some v else none
  | none => none

/-- `encode`: `json.dumps(msg) + "\n"` as characters. -/
def encode (m : JVal) : List Char := printVal m ++ [Char.ofNat 10]

/-- `decode`: strip surrounding whitespace (the frame's newline) and parse. -/
def decode (cs : List Char) : Option JVal := loads (stripChars cs)

/-! ### Character and digit lemmas -/

theorem char_eq_of_toNat_eq (c d : Char) (h : c.toNat = d.toNat) : c = d := by
  rw [← Char.ofNat_toNat c, h, Char.ofNat_toNat]

theorem char_ne_of_toNat_ne (c d : Char) (h : c.toNat ≠ d.toNat) : c ≠ d :=
  fun hc => h (by rw [hc])

theorem hexDig_toNat_lt10 : ∀ d, d < 10 → (hexDig d).toNat = 48 + d := by decide

theorem isDigitChar_hexDig : ∀ d, d < 10 → isDigitChar (hexDig d) = true := by decide

theorem hexVal_hexDig : ∀ x, x < 16 → hexVal (hexDig x) = some x := by decide

theorem isDigitChar_toNat (c : Char) (h : isDigitChar c = true) :
    48 ≤ c.toNat ∧ c.toNat ≤ 57 := by
  simpa [isDigitChar] using h

/-! ### Decimal printing round-trips through `parseDigits` -/

theorem parseDigits_stop (cs : List Char) (acc : Nat) (h : headDigit cs = false) :
    parseDigits cs acc = (acc, cs) := by
  cases cs with
  | nil => rfl
  | cons c cs' =>
    simp only [headDigit] at h
    simp [parseDigits, h]

theorem parseDigits_printNatAux : ∀ (fuel n acc : Nat) (rest : List Char), n < 10 ^ fuel →
    parseDigits (printNatAux fuel n ++ rest) acc
      = parseDigits rest (acc * 10 ^ (printNatAux fuel n).length + n) := by
  intro fuel
  induction fuel with
  | zero =>
    intro n acc rest hn
    have hn0 : n = 0 := by simpa using hn
    subst hn0
    simp [printNatAux]
  | succ f ih =>
    intro n acc rest hn
    by_cases h10 : n < 10
    · have hd := isDigitChar_hexDig n h10
      have ht := hexDig_toNat_lt10 n h10
      simp only [printNatAux, if_pos h10, List.singleton_append, parseDigits, hd, if_true,
        List.length_singleton, ht, pow_one]
      congr 1
      omega
    · have hdiv : n / 10 < 10 ^ f := by
        rw [pow_succ] at hn
        omega
      simp only [printNatAux, if_neg h10, List.append_assoc]
      rw [ih (n / 10) acc _ hdiv]
      have hd := isDigitChar_hexDig (n % 10) (by omega)
      have ht := hexDig_toNat_lt10 (n % 10) (by omega)
      simp only [List.singleton_append, parseDigits, hd, if_true, ht]
      congr 1
      simp only [List.length_append, List.length_singleton, pow_succ]
      rw [← mul_assoc]
      generalize acc * 10 ^ (printNatAux f (n / 10)).length = A
      omega

theorem headDigit_printNatAux : ∀ (fuel n : Nat) (rest : List Char),
    (0 < fuel ∨ headDigit rest = true) → headDigit (printNatAux fuel n ++ rest) = true := by
  intro fuel
  induction fuel with
  | zero =>
    intro n rest h
    rcases h with h | h
    · omega
    · simpa [printNatAux] using h
  | succ f ih =>
    intro n rest h
    by_cases h10 : n < 10
    · simp [printNatAux, h10, headDigit, isDigitChar_hexDig n h10]
    · simp only [printNatAux, if_neg h10, List.append_assoc]
      exact ih (n / 10) _ (Or.inr (by
        simp [headDigit, isDigitChar_hexDig (n % 10) (by omega)]))

theorem headDigit_printNat (n : Nat) (rest : List Char) :
    headDigit (printNat n ++ rest) = true :=
  headDigit_printNatAux (n + 1) n rest (Or.inl (Nat.succ_pos n))

theorem lt_ten_pow_succ (n : Nat) : n < 10 ^ (n + 1) := by
  calc n < 10 ^ n := Nat.lt_pow_self (by norm_num) n
    _ ≤ 10 ^ (n + 1) := Nat.pow_le_pow_right (by norm_num) (Nat.le_succ n)

theorem parseDigits_printNat (n : Nat) (rest : List Char) (h : headDigit rest = false) :
    parseDigits (printNat n ++ rest) 0 = (n, rest) := by
  unfold printNat
  rw [parseDigits_printNatAux (n + 1) n 0 rest (lt_ten_pow_succ n)]
  simpa using parseDigits_stop rest n h

theorem parseNumber_printInt (i : Int) (rest : List Char) (h : headDigit rest = false) :
    parseNumber (printInt i ++ rest) = some (.jint i, rest) := by
  unfold printInt
  by_cases hi : i < 0
  · rw [if_pos hi]
    simp only [List.cons_append, parseNumber, if_pos rfl]
    rw [headDigit_printNat, if_pos rfl, parseDigits_printNat _ _ h]
    have hneg : -Int.ofNat (-i).toNat = i := by
      simp only [Int.ofNat_eq_coe]
      omega
    rw [hneg]
    simp
  · rw [if_neg hi]
    have hh := headDigit_printNat i.toNat rest
    cases hcs : printNat i.toNat ++ rest with
    | nil => rw [hcs] at hh; cases hh
    | cons c t =>
      rw [hcs] at hh
      simp only [headDigit] at hh
      have hnd : c ≠ '-' := by
        obtain ⟨h1, h2⟩ := isDigitChar_toNat c hh
        refine char_ne_of_toNat_ne c '-' ?_
        rw [show ('-').toNat = 45 from rfl]
        omega
      simp only [parseNumber]
      rw [if_neg hnd]
      rw [if_pos hh]
      rw [← hcs]
      rw [parseDigits_printNat _ _ h]
      have : Int.ofNat i.toNat = i := by
        simp only [Int.ofNat_eq_coe]
        omega
      rw [this]

/-! ### String escaping round-trips -/

theorem char_not_surrogate (c : Char) :
    c.toNat < 55296 ∨ (57343 < c.toNat ∧ c.toNat < 1114112) := by
  have h := c.valid
  simp only [UInt32.isValidChar, Nat.isValidChar] at h
  exact h

theorem psb_quote (f : Nat) (rest : List Char) :
    parseStrBody (f + 1) ('"' :: rest) = some ([], rest) := rfl

theorem psb_esc (f : Nat) (rest : List Char) :
    parseStrBody (f + 1) ('\\' :: rest) = parseEsc (parseStrBody f) rest := rfl

theorem psb_plain (f : Nat) (c : Char) (rest : List Char)
    (h1 : ¬ c = '"') (h2 : ¬ c = '\\') :
    parseStrBody (f + 1) (c :: rest)
      = (parseStrBody f rest).map fun p => (c :: p.1, p.2) := by
  rw [parseStrBody, if_neg h1, if_neg h2]

theorem parseEsc_quote (k : List Char → Option (List Char × List Char)) (r : List Char) :
    parseEsc k ('"' :: r) = (k r).map fun p => ('"' :: p.1, p.2) := rfl

theorem parseEsc_bslash (k : List Char → Option (List Char × List Char)) (r : List Char) :
    parseEsc k ('\\' :: r) = (k r).map fun p => ('\\' :: p.1, p.2) := rfl

theorem parseEsc_n (k : List Char → Option (List Char × List Char)) (r : List Char) :
    parseEsc k ('n' :: r) = (k r).map fun p => (Char.ofNat 10 :: p.1, p.2) := rfl

theorem parseEsc_t (k : List Char → Option (List Char × List Char)) (r : List Char) :
    parseEsc k ('t' :: r) = (k r).map fun p => (Char.ofNat 9 :: p.1, p.2) := rfl

theorem parseEsc_r (k : List Char → Option (List Char × List Char)) (r : List Char) :
    parseEsc k ('r' :: r) = (k r).map fun p => (Char.ofNat 13 :: p.1, p.2) := rfl

theorem parseEsc_b (k : List Char → Option (List Char × List Char)) (r : List Char) :
    parseEsc k ('b' :: r) = (k r).map fun p => (Char.ofNat 8 :: p.1, p.2) := rfl

theorem parseEsc_f (k : List Char → Option (List Char × List Char)) (r : List Char) :
    parseEsc k ('f' :: r) = (k r).map fun p => (Char.ofNat 12 :: p.1, p.2) := rfl

theorem parseEsc_u (k : List Char → Option (List Char × List Char))
    (h1 h2 h3 h4 : Char) (r : List Char) :
    parseEsc k ('u' :: h1 :: h2 :: h3 :: h4 :: r) = parseU k h1 h2 h3 h4 r := rfl

theorem parseU_bmp (k : List Char → Option (List Char × List Char))
    (n : Nat) (r : List Char) (hn : n ≤ 65535) (hs : ¬ (55296 ≤ n ∧ n ≤ 57343)) :
    parseU k (hexDig (n / 4096 % 16)) (hexDig (n / 256 % 16))
        (hexDig (n / 16 % 16)) (hexDig (n % 16)) r
      = (k r).map fun p => (Char.ofNat n :: p.1, p.2) := by
  unfold parseU
  rw [hexVal_hexDig _ (by omega), hexVal_hexDig _ (by omega),
    hexVal_hexDig _ (by omega), hexVal_hexDig _ (by omega)]
  have hcomb : ((n / 4096 % 16 * 16 + n / 256 % 16) * 16 + n / 16 % 16) * 16 + n % 16 = n := by
    omega
  simp only [hcomb]
  rw [if_neg (by omega), if_neg (by omega)]

theorem parseULow_eval (k : List Char → Option (List Char × List Char))
    (n1 lo : Nat) (r2 : List Char) (hlo1 : 56320 ≤ lo) (hlo2 : lo ≤ 57343) :
    parseULow k n1 ('\\' :: 'u' :: hexDig (lo / 4096 % 16) :: hexDig (lo / 256 % 16) ::
        hexDig (lo / 16 % 16) :: hexDig (lo % 16) :: r2)
      = (k r2).map fun p =>
          (Char.ofNat (65536 + (n1 - 55296) * 1024 + (lo - 56320)) :: p.1, p.2) := by
  have hstep : parseULow k n1 ('\\' :: 'u' :: hexDig (lo / 4096 % 16) ::
      hexDig (lo / 256 % 16) :: hexDig (lo / 16 % 16) :: hexDig (lo % 16) :: r2)
      = parseULowU k n1 (hexDig (lo / 4096 % 16)) (hexDig (lo / 256 % 16))
          (hexDig (lo / 16 % 16)) (hexDig (lo % 16)) r2 := rfl
  rw [hstep]
  unfold parseULowU
  rw [hexVal_hexDig _ (by omega), hexVal_hexDig _ (by omega),
    hexVal_hexDig _ (by omega), hexVal_hexDig _ (by omega)]
  have hcomb : ((lo / 4096 % 16 * 16 + lo / 256 % 16) * 16 + lo / 16 % 16) * 16 + lo % 16
      = lo := by omega
  simp only [hcomb]
  rw [if_pos (by omega)]

theorem parseU_astral (k : List Char → Option (List Char × List Char))
    (hi lo : Nat) (r2 : List Char)
    (hhi1 : 55296 ≤ hi) (hhi2 : hi ≤ 56319) (hlo1 : 56320 ≤ lo) (hlo2 : lo ≤ 57343) :
    parseU k (hexDig (hi / 4096 % 16)) (hexDig (hi / 256 % 16))
        (hexDig (hi / 16 % 16)) (hexDig (hi % 16))
        ('\\' :: 'u' :: hexDig (lo / 4096 % 16) :: hexDig (lo / 256 % 16) ::
          hexDig (lo / 16 % 16) :: hexDig (lo % 16) :: r2)
      = (k r2).map fun p =>
          (Char.ofNat (65536 + (hi - 55296) * 1024 + (lo - 56320)) :: p.1, p.2) := by
  unfold parseU
  rw [hexVal_hexDig _ (by omega), hexVal_hexDig _ (by omega),
    hexVal_hexDig _ (by omega), hexVal_hexDig _ (by omega)]
  have hcomb : ((hi / 4096 % 16 * 16 + hi / 256 % 16) * 16 + hi / 16 % 16) * 16 + hi % 16
      = hi := by omega
  simp only [hcomb]
  rw [if_pos (by omega)]
  exact parseULow_eval k hi lo r2 hlo1 hlo2

theorem parseStrBody_escStr : ∀ (cs : List Char) (fuel : Nat) (rest : List Char),
    cs.length < fuel →
    parseStrBody fuel (escStr cs ++ ('"' :: rest)) = some (cs, rest) := by
  intro cs
  induction cs with
  | nil =>
    intro fuel rest hfuel
    obtain ⟨f, rfl⟩ : ∃ f, fuel = f + 1 := ⟨fuel - 1, by omega⟩
    exact psb_quote f rest
  | cons c cs ih =>
    intro fuel rest hfuel
    obtain ⟨f, rfl⟩ : ∃ f, fuel = f + 1 := ⟨fuel - 1, by omega⟩
    have hf : cs.length < f := by
      simp only [List.length_cons] at hfuel
      omega
    simp only [escStr, List.append_assoc]
    unfold escChar
    by_cases h1 : c = '"'
    · subst h1
      rw [if_pos rfl]
      simp only [List.cons_append, List.nil_append]
      rw [psb_esc, parseEsc_quote, ih f rest hf]
      rfl
    · rw [if_neg h1]
      by_cases h2 : c = '\\'
      · subst h2
        rw [if_pos rfl]
        simp only [List.cons_append, List.nil_append]
        rw [psb_esc, parseEsc_bslash, ih f rest hf]
        rfl
      · rw [if_neg h2]
        by_cases h3 : c = Char.ofNat 10
        · subst h3
          rw [if_pos rfl]
          simp only [List.cons_append, List.nil_append]
          rw [psb_esc, parseEsc_n, ih f rest hf]
          rfl
        · rw [if_neg h3]
          by_cases h4 : c = Char.ofNat 9
          · subst h4
            rw [if_pos rfl]
            simp only [List.cons_append, List.nil_append]
            rw [psb_esc, parseEsc_t, ih f rest hf]
            rfl
          · rw [if_neg h4]
            by_cases h5 : c = Char.ofNat 13
            · subst h5
              rw [if_pos rfl]
              simp only [List.cons_append, List.nil_append]
              rw [psb_esc, parseEsc_r, ih f rest hf]
              rfl
            · rw [if_neg h5]
              by_cases h6 : c = Char.ofNat 8
              · subst h6
                rw [if_pos rfl]
                simp only [List.cons_append, List.nil_append]
                rw [psb_esc, parseEsc_b, ih f rest hf]
                rfl
              · rw [if_neg h6]
                by_cases h7 : c = Char.ofNat 12
                · subst h7
                  rw [if_pos rfl]
                  simp only [List.cons_append, List.nil_append]
                  rw [psb_esc, parseEsc_f, ih f rest hf]
                  rfl
                · rw [if_neg h7]
                  by_cases h8 : c.toNat < 32 ∨ 126 < c.toNat
                  · rw [if_pos h8]
                    by_cases h9 : c.toNat ≤ 65535
                    · rw [if_pos h9]
                      have hs : ¬ (55296 ≤ c.toNat ∧ c.toNat ≤ 57343) := by
                        rcases char_not_surrogate c with hval | ⟨hval1, hval2⟩ <;> omega
                      simp only [hex4, List.cons_append, List.nil_append]
                      rw [psb_esc, parseEsc_u, parseU_bmp _ _ _ h9 hs, ih f rest hf]
                      simp only [Option.map_some']
                      rw [Char.ofNat_toNat]
                    · rw [if_neg h9]
                      have hbig : c.toNat < 1114112 := by
                        rcases char_not_surrogate c with hval | ⟨hval1, hval2⟩ <;> omega
                      simp only [hex4, List.cons_append, List.nil_append, List.append_assoc]
                      rw [psb_esc, parseEsc_u,
                        parseU_astral _ _ _ _ (by omega) (by omega) (by omega) (by omega),
                        ih f rest hf]
                      simp only [Option.map_some']
                      have hfin : 65536 + (55296 + (c.toNat - 65536) / 1024 - 55296) * 1024 +
                          (56320 + (c.toNat - 65536) % 1024 - 56320) = c.toNat := by omega
                      rw [hfin, Char.ofNat_toNat]
                  · rw [if_neg h8]
                    simp only [List.cons_append, List.nil_append]
                    rw [psb_plain f c _ h1 h2, ih f rest hf]
                    rfl

/-- Every character escapes to at least one character. -/
theorem escChar_length_pos (c : Char) : 1 ≤ (escChar c).length := by
  unfold escChar
  repeat' split
  all_goals simp [hex4]

theorem escStr_length : ∀ cs : List Char, cs.length ≤ (escStr cs).length := by
  intro cs
  induction cs with
  | nil => simp [escStr]
  | cons c cs ih =>
    simp only [escStr, List.length_append, List.length_cons]
    have := escChar_length_pos c
    omega

theorem parseStr_escStr (cs rest : List Char) :
    parseStr (escStr cs ++ ('"' :: rest)) = some (cs, rest) := by
  unfold parseStr
  apply parseStrBody_escStr
  have h1 := escStr_length cs
  simp only [List.length_append, List.length_cons]
  omega

/-! ### Step lemmas for the value parser -/

theorem pv_null (f : Nat) (r : List Char) :
    parseVal (f + 1) ('n' :: 'u' :: 'l' :: 'l' :: r) = some (.jnull, r) := rfl

theorem pv_true (f : Nat) (r : List Char) :
    parseVal (f + 1) ('t' :: 'r' :: 'u' :: 'e' :: r) = some (.jbool true, r) := rfl

theorem pv_false (f : Nat) (r : List Char) :
    parseVal (f + 1) ('f' :: 'a' :: 'l' :: 's' :: 'e' :: r) = some (.jbool false, r) := rfl

theorem pv_str (f : Nat) (r : List Char) :
    parseVal (f + 1) ('"' :: r) = (parseStr r).map fun p => (.jstr ⟨p.1⟩, p.2) := rfl

theorem pv_arr (f : Nat) (r : List Char) :
    parseVal (f + 1) ('[' :: r) =
      (if headIs ']' (skipWs r) then some (.jarr [], (skipWs r).tail)
       else (parseElems f (skipWs r)).map fun p => (.jarr p.1, p.2)) := rfl

theorem pv_obj (f : Nat) (r : List Char) :
    parseVal (f + 1) (Char.ofNat 123 :: r) =
      (if headIs (Char.ofNat 125) (skipWs r) then some (.jobj [], (skipWs r).tail)
       else (parseMembers f (skipWs r)).map fun p => (.jobj p.1, p.2)) := rfl

theorem pv_number (f : Nat) (c : Char) (r : List Char)
    (h1 : ¬ c = 'n') (h2 : ¬ c = 't') (h3 : ¬ c = 'f') (h4 : ¬ c = '"')
    (h5 : ¬ c = '[') (h6 : ¬ c = Char.ofNat 123) :
    parseVal (f + 1) (c :: r) = parseNumber (c :: r) := by
  simp only [parseVal]
  rw [if_neg h1, if_neg h2, if_neg h3, if_neg h4, if_neg h5, if_neg h6]

theorem pe_succ (f : Nat) (cs : List Char) :
    parseElems (f + 1) cs =
      (match parseVal f cs with
       | none => none
       | some (v, r) =>
         match skipWs r with
         | ',' :: r2 => (parseElems f (skipWs r2)).map fun p => (v :: p.1, p.2)
         | ']' :: r2 => some ([v], r2)
         | _ => none) := rfl

theorem pm_quote (f : Nat) (r : List Char) :
    parseMembers (f + 1) ('"' :: r) =
      (match parseStr r with
       | none => none
       | some (k, r1) =>
         match skipWs r1 with
         | ':' :: r2 =>
           match parseVal f (skipWs r2) with
           | none => none
           | some (v, r3) =>
             match skipWs r3 with
             | ',' :: r4 => (parseMembers f (skipWs r4)).map fun p => ((⟨k⟩, v) :: p.1, p.2)
             | '\x7d' :: r4 => some ([(⟨k⟩, v)], r4)
             | _ => none
         | _ => none) := rfl

/-! ### Head and last characters of printed values -/

/-- A character opening a number literal collides with no other token start. -/
theorem numStart_ne (c : Char) (hc : c = '-' ∨ isDigitChar c = true) :
    ¬ c = 'n' ∧ ¬ c = 't' ∧ ¬ c = 'f' ∧ ¬ c = '"' ∧ ¬ c = '[' ∧
      ¬ c = Char.ofNat 123 ∧ isWsChar c = false ∧ ¬ c = ']' ∧ ¬ c = Char.ofNat 125 := by
  rcases hc with rfl | hd
  · refine ⟨by decide, by decide, by decide, by decide, by decide, by decide,
      by decide, by decide, by decide⟩
  · obtain ⟨hlo, hhi⟩ := isDigitChar_toNat c hd
    refine ⟨char_ne_of_toNat_ne c 'n' (by show c.toNat ≠ 110; omega),
      char_ne_of_toNat_ne c 't' (by show c.toNat ≠ 116; omega),
      char_ne_of_toNat_ne c 'f' (by show c.toNat ≠ 102; omega),
      char_ne_of_toNat_ne c '"' (by show c.toNat ≠ 34; omega),
      char_ne_of_toNat_ne c '[' (by show c.toNat ≠ 91; omega), ?_, ?_,
      char_ne_of_toNat_ne c ']' (by show c.toNat ≠ 93; omega), ?_⟩
    · refine char_ne_of_toNat_ne c (Char.ofNat 123) ?_
      rw [show (Char.ofNat 123).toNat = 123 from rfl]
      omega
    · simp only [isWsChar, decide_eq_false_iff_not]
      omega
    · refine char_ne_of_toNat_ne c (Char.ofNat 125) ?_
      rw [show (Char.ofNat 125).toNat = 125 from rfl]
      omega

theorem printInt_head (i : Int) :
    ∃ c t, printInt i = c :: t ∧ (c = '-' ∨ isDigitChar c = true) := by
  unfold printInt
  by_cases hi : i < 0
  · rw [if_pos hi]
    exact ⟨'-', _, rfl, Or.inl rfl⟩
  · rw [if_neg hi]
    have hh := headDigit_printNat i.toNat []
    rw [List.append_nil] at hh
    cases hcs : printNat i.toNat with
    | nil => rw [hcs] at hh; cases hh
    | cons c t =>
      rw [hcs] at hh
      simp only [headDigit] at hh
      exact ⟨c, t, rfl, Or.inr hh⟩

theorem printVal_head (v : JVal) :
    ∃ c t, printVal v = c :: t ∧ isWsChar c = false ∧ ¬ c = ']' ∧ ¬ c = Char.ofNat 125 := by
  cases v with
  | jnull => exact ⟨'n', ['u', 'l', 'l'], by simp [printVal], by decide, by decide, by decide⟩
  | jbool b =>
    cases b
    · exact ⟨'f', ['a', 'l', 's', 'e'], by simp [printVal], by decide, by decide, by decide⟩
    · exact ⟨'t', ['r', 'u', 'e'], by simp [printVal], by decide, by decide, by decide⟩
  | jint i =>
    obtain ⟨c, t, heq, hc⟩ := printInt_head i
    obtain ⟨_, _, _, _, _, _, hws, hrb, hbr⟩ := numStart_ne c hc
    exact ⟨c, t, by simp [printVal, heq], hws, hrb, hbr⟩
  | jstr s =>
    exact ⟨'"', escStr s.data ++ ['"'], by simp [printVal, printStr], by decide, by decide,
      by decide⟩
  | jarr xs =>
    cases xs with
    | nil => exact ⟨'[', [']'], by simp [printVal], by decide, by decide, by decide⟩
    | cons x xs' =>
      exact ⟨'[', printArr x xs' ++ [']'], by simp [printVal], by decide, by decide, by decide⟩
  | jobj kvs =>
    cases kvs with
    | nil =>
      exact ⟨Char.ofNat 123, [Char.ofNat 125], by simp [printVal], by decide, by decide,
        by decide⟩
    | cons kv kvs' =>
      exact ⟨Char.ofNat 123, printObj kv kvs' ++ [Char.ofNat 125], by simp [printVal],
        by decide, by decide, by decide⟩

theorem printVal_length_pos (v : JVal) : 1 ≤ (printVal v).length := by
  obtain ⟨c, t, heq, _⟩ := printVal_head v
  rw [heq]
  simp

theorem skipWs_printVal (v : JVal) (u : List Char) :
    skipWs (printVal v ++ u) = printVal v ++ u := by
  obtain ⟨c, t, heq, hws, _⟩ := printVal_head v
  rw [heq, List.cons_append]
  simp [skipWs, List.dropWhile_cons, hws]

theorem skipWs_space (t : List Char) : skipWs (' ' :: t) = skipWs t := rfl

theorem skipWs_printArr (x : JVal) (xs : List JVal) (u : List Char) :
    skipWs (printArr x xs ++ u) = printArr x xs ++ u := by
  cases xs with
  | nil =>
    simp only [printArr]
    exact skipWs_printVal x u
  | cons y ys =>
    simp only [printArr, List.append_assoc, List.cons_append]
    exact skipWs_printVal x _

theorem skipWs_printObj (kv : String × JVal) (kvs : List (String × JVal)) (u : List Char) :
    skipWs (printObj kv kvs ++ u) = printObj kv kvs ++ u := by
  obtain ⟨k, v⟩ := kv
  cases kvs <;> simp only [printObj, printStr, List.append_assoc, List.cons_append] <;> rfl

theorem headIs_rb_printArr (x : JVal) (xs : List JVal) (u : List Char) :
    headIs ']' (printArr x xs ++ u) = false := by
  obtain ⟨c, t, heq, _, hrb, _⟩ := printVal_head x
  cases xs with
  | nil =>
    simp only [printArr]
    rw [heq, List.cons_append]
    simp [headIs, hrb]
  | cons y ys =>
    simp only [printArr, List.append_assoc, List.cons_append]
    rw [heq, List.cons_append]
    simp [headIs, hrb]

theorem headIs_brace_printObj (kv : String × JVal) (kvs : List (String × JVal))
    (u : List Char) :
    headIs (Char.ofNat 125) (printObj kv kvs ++ u) = false := by
  obtain ⟨k, v⟩ := kv
  cases kvs <;> simp only [printObj, printStr, List.append_assoc, List.cons_append] <;>
    simp [headIs]

/-! ### The parser inverts the printer -/

theorem parse_print (fuel : Nat) :
    (∀ (v : JVal) (rest : List Char), (printVal v).length ≤ fuel →
      headDigit rest = false → parseVal fuel (printVal v ++ rest) = some (v, rest)) ∧
    (∀ (x : JVal) (xs : List JVal) (rest : List Char),
      (printArr x xs).length + 1 ≤ fuel →
      parseElems fuel (printArr x xs ++ (']' :: rest)) = some (x :: xs, rest)) ∧
    (∀ (kv : String × JVal) (kvs : List (String × JVal)) (rest : List Char),
      (printObj kv kvs).length + 1 ≤ fuel →
      parseMembers fuel (printObj kv kvs ++ (Char.ofNat 125 :: rest))
        = some (kv :: kvs, rest)) := by
  induction fuel with
  | zero =>
    refine ⟨?_, ?_, ?_⟩
    · intro v rest hle _
      have := printVal_length_pos v
      omega
    · intro x xs rest hle
      omega
    · intro kv kvs rest hle
      omega
  | succ f ih =>
    obtain ⟨ihV, ihA, ihO⟩ := ih
    refine ⟨?_, ?_, ?_⟩
    · intro v rest hle hdr
      cases v with
      | jnull =>
        simp only [printVal, List.cons_append, List.nil_append]
        exact pv_null f rest
      | jbool b =>
        cases b
        · simp only [printVal, List.cons_append, List.nil_append]
          exact pv_false f rest
        · simp only [printVal, List.cons_append, List.nil_append]
          exact pv_true f rest
      | jint i =>
        simp only [printVal]
        obtain ⟨c, t, heq, hc⟩ := printInt_head i
        obtain ⟨h1, h2, h3, h4, h5, h6, _, _, _⟩ := numStart_ne c hc
        rw [heq, List.cons_append, pv_number f c _ h1 h2 h3 h4 h5 h6,
          ← List.cons_append, ← heq, parseNumber_printInt i rest hdr]
      | jstr s =>
        simp only [printVal, printStr, List.cons_append, List.append_assoc, List.nil_append]
        rw [pv_str, parseStr_escStr]
        rfl
      | jarr xs =>
        cases xs with
        | nil =>
          simp only [printVal, List.cons_append, List.nil_append]
          rw [pv_arr]
          rfl
        | cons x xs' =>
          simp only [printVal, List.length_cons, List.length_append] at hle
          simp only [printVal, List.cons_append, List.append_assoc, List.nil_append]
          rw [pv_arr, skipWs_printArr, headIs_rb_printArr, if_neg Bool.false_ne_true,
            ihA x xs' rest (by omega)]
          rfl
      | jobj kvs =>
        cases kvs with
        | nil =>
          simp only [printVal, List.cons_append, List.nil_append]
          rw [pv_obj]
          rfl
        | cons kv kvs' =>
          simp only [printVal, List.length_cons, List.length_append] at hle
          simp only [printVal, List.cons_append, List.append_assoc, List.nil_append]
          rw [pv_obj, skipWs_printObj, headIs_brace_printObj, if_neg Bool.false_ne_true,
            ihO kv kvs' rest (by omega)]
          rfl
    · intro x xs rest hle
      cases xs with
      | nil =>
        simp only [printArr, List.length_append, List.length_cons] at hle ⊢
        rw [pe_succ, ihV x (']' :: rest) (by omega) rfl]
        rfl
      | cons y ys =>
        simp only [printArr, List.length_append, List.length_cons] at hle
        simp only [printArr, List.append_assoc, List.cons_append]
        rw [pe_succ,
          ihV x (',' :: ' ' :: (printArr y ys ++ (']' :: rest))) (by omega) rfl]
        show (parseElems f (skipWs (' ' :: (printArr y ys ++ (']' :: rest))))).map
            (fun p => (x :: p.1, p.2)) = some (x :: y :: ys, rest)
        rw [skipWs_space, skipWs_printArr, ihA y ys rest (by omega)]
        rfl
    · intro kv kvs rest hle
      obtain ⟨k, v⟩ := kv
      cases kvs with
      | nil =>
        simp only [printObj, printStr, List.length_append, List.length_cons] at hle
        simp only [printObj, printStr, List.cons_append, List.append_assoc, List.nil_append]
        rw [pm_quote, parseStr_escStr]
        show (match parseVal f (skipWs (' ' :: (printVal v ++ (Char.ofNat 125 :: rest)))) with
              | none => none
              | some (v2, r3) =>
                match skipWs r3 with
                | ',' :: r4 =>
                  (parseMembers f (skipWs r4)).map fun p => ((⟨k.data⟩, v2) :: p.1, p.2)
                | '\x7d' :: r4 => some ([(⟨k.data⟩, v2)], r4)
                | _ => none) = some ([(k, v)], rest)
        rw [skipWs_space, skipWs_printVal,
          ihV v (Char.ofNat 125 :: rest) (by omega) rfl]
        rfl
      | cons kv2 kvs' =>
        simp only [printObj, printStr, List.length_append, List.length_cons] at hle
        simp only [printObj, printStr, List.cons_append, List.append_assoc, List.nil_append]
        rw [pm_quote, parseStr_escStr]
        show (match parseVal f (skipWs (' ' :: (printVal v ++ (',' :: ' ' ::
                (printObj kv2 kvs' ++ (Char.ofNat 125 :: rest)))))) with
              | none => none
              | some (v2, r3) =>
                match skipWs r3 with
                | ',' :: r4 =>
                  (parseMembers f (skipWs r4)).map fun p => ((⟨k.data⟩, v2) :: p.1, p.2)
                | '\x7d' :: r4 => some ([(⟨k.data⟩, v2)], r4)
                | _ => none) = some ((k, v) :: kv2 :: kvs', rest)
        rw [skipWs_space, skipWs_printVal,
          ihV v (',' :: ' ' :: (printObj kv2 kvs' ++ (Char.ofNat 125 :: rest)))
            (by omega) rfl]
        show (parseMembers f (skipWs (' ' :: (printObj kv2 kvs' ++
                (Char.ofNat 125 :: rest))))).map
            (fun p => ((⟨k.data⟩, v) :: p.1, p.2)) = some ((k, v) :: kv2 :: kvs', rest)
        rw [skipWs_space, skipWs_printObj, ihO kv2 kvs' rest (by omega)]
        rfl

theorem loads_printVal (v : JVal) : loads (printVal v) = some v := by
  unfold loads
  have h0 : skipWs (printVal v) = printVal v := by
    have h := skipWs_printVal v []
    simpa using h
  rw [h0]
  have hA := (parse_print ((printVal v).length + 1)).1 v [] (by omega) rfl
  rw [List.append_nil] at hA
  rw [hA]
  rfl

/-! ### Stripping the frame newline -/

theorem isWsChar_hexDig : ∀ d, d < 10 → isWsChar (hexDig d) = false := by decide

theorem printNat_last (n : Nat) : ∃ t d, d < 10 ∧ printNat n = t ++ [hexDig d] := by
  unfold printNat
  by_cases h10 : n < 10
  · exact ⟨[], n, h10, by simp [printNatAux, h10]⟩
  · exact ⟨printNatAux n (n / 10), n % 10, by omega, by simp [printNatAux, h10]⟩

theorem printInt_last (i : Int) : ∃ t d, d < 10 ∧ printInt i = t ++ [hexDig d] := by
  unfold printInt
  by_cases hi : i < 0
  · rw [if_pos hi]
    obtain ⟨t, d, hd, heq⟩ := printNat_last (-i).toNat
    exact ⟨'-' :: t, d, hd, by rw [heq]; rfl⟩
  · rw [if_neg hi]
    exact printNat_last i.toNat

theorem printVal_last (v : JVal) :
    ∃ t c, printVal v = t ++ [c] ∧ isWsChar c = false := by
  cases v with
  | jnull => exact ⟨['n', 'u', 'l'], 'l', by simp [printVal], by decide⟩
  | jbool b =>
    cases b
    · exact ⟨['f', 'a', 'l', 's'], 'e', by simp [printVal], by decide⟩
    · exact ⟨['t', 'r', 'u'], 'e', by simp [printVal], by decide⟩
  | jint i =>
    obtain ⟨t, d, hd, heq⟩ := printInt_last i
    exact ⟨t, hexDig d, by simp [printVal, heq], isWsChar_hexDig d hd⟩
  | jstr s =>
    exact ⟨'"' :: escStr s.data, '"', by simp [printVal, printStr], by decide⟩
  | jarr xs =>
    cases xs with
    | nil => exact ⟨['['], ']', by simp [printVal], by decide⟩
    | cons x xs' => exact ⟨'[' :: printArr x xs', ']', by simp [printVal], by decide⟩
  | jobj kvs =>
    cases kvs with
    | nil => exact ⟨[Char.ofNat 123], Char.ofNat 125, by simp [printVal], by decide⟩
    | cons kv kvs' =>
      exact ⟨Char.ofNat 123 :: printObj kv kvs', Char.ofNat 125, by simp [printVal],
        by decide⟩

theorem stripChars_printVal (v : JVal) :
    stripChars (printVal v ++ [Char.ofNat 10]) = printVal v := by
  obtain ⟨c0, t0, hh, hw0, _, _⟩ := printVal_head v
  obtain ⟨t1, c1, hl, hw1⟩ := printVal_last v
  unfold stripChars
  have hleft : (printVal v ++ [Char.ofNat 10]).dropWhile isWsChar
      = printVal v ++ [Char.ofNat 10] := by
    rw [hh, List.cons_append]
    simp [List.dropWhile_cons, hw0]
  rw [hleft]
  have hrev : (printVal v ++ [Char.ofNat 10]).reverse
      = Char.ofNat 10 :: (c1 :: t1.reverse) := by
    rw [hl]
    simp
  rw [hrev]
  have hdrop : (Char.ofNat 10 :: (c1 :: t1.reverse)).dropWhile isWsChar
      = c1 :: t1.reverse := by
    simp [List.dropWhile_cons, hw1, show isWsChar (Char.ofNat 10) = true from rfl]
  rw [hdrop]
  rw [show (c1 :: t1.reverse).reverse = t1 ++ [c1] by simp]
  rw [← hl]

/-- Claim C9: framing round-trip — for every JSON message value `m`,
`decode (encode m) = m`: `encode` appends a newline to `json.dumps m` and
`decode` strips the surrounding whitespace and parses it back with
`json.loads`, recovering exactly the original value. -/
theorem C9_decode_encode (m : JVal) : decode (encode m) = some m := by
  unfold decode encode
  rw [stripChars_printVal]
  exact loads_printVal m

end Messages

end Lab3
